import Mathlib

/-!
Verification development for the feed-llm tri-state selection tree
(`src/feed_llm/ui.py`, `src/feed_llm/main.py`, `src/feed_llm/ignore_manager.py`).

Shallow embedding conventions:

* A filesystem snapshot is an `FSNode`: a file, or a directory with a list of
  named children.  The claims all assume the filesystem is unchanged after
  `build`, so one immutable snapshot drives every `iterdir`/`is_dir` query the
  Python code performs.
* A path (`FPath`) is the list of path segments *innermost first*, so that
  `Path.parent` is `List.tail` and a child of `p` named `a` is `a :: p`.
  The root passed to the tree is `[]`.
* `path_to_state` is an insertion-ordered association list with Python `dict`
  semantics: updating an existing key keeps its position, a new key is
  appended at the end.  `dict.items()` iteration order (used by
  `_collect_selected_files`) is the list order.
* Selection states are the integers used by the source: 0 = not selected,
  1 = partially selected, 2 = fully selected.
-/

namespace FeedLLM

/-- One segment of a filesystem name. -/
abbrev Name := String

/-- A path, as the list of segments innermost-first; `[]` is the tree root,
`Path.parent` is `List.tail`. -/
abbrev FPath := List Name

/-- A filesystem snapshot node: a plain file, or a directory with an ordered
list of named children (the listing order models the arbitrary order
`Path.iterdir` yields entries in). -/
inductive FSNode where
  | file : FSNode
  | dir : List (Name × FSNode) → FSNode
deriving Repr

/-- The `path_to_state` dictionary: insertion-ordered path/state pairs. -/
abbrev StMap := List (FPath × Nat)

/-! ### Python-dict primitives -/

/-- Dictionary lookup (`d.get(p)`): first entry whose key is `p`. -/
def dictGet (m : StMap) (p : FPath) : Option Nat :=
  match m with
  | [] => none
  | (q, s) :: r => if q = p then some s else dictGet r p

/-- Dictionary lookup with default 0 (`d.get(p, 0)`). -/
def dictGetD (m : StMap) (p : FPath) : Nat :=
  (dictGet m p).getD 0

/-- Key membership (`p in d`). -/
def hasKey (m : StMap) (p : FPath) : Bool :=
  (dictGet m p).isSome

/-- Dictionary assignment (`d[p] = s`): replace in place if the key exists,
otherwise append at the end, exactly like a Python dict. -/
def dictSet (m : StMap) (p : FPath) (s : Nat) : StMap :=
  match m with
  | [] => [(p, s)]
  | (q, v) :: r => if q = p then (q, s) :: r else (q, v) :: dictSet r p s

/-- The key list of the dictionary, in insertion order. -/
def dictKeys (m : StMap) : List FPath :=
  m.map Prod.fst

/-! ### Filesystem queries -/

/-- Look up a name among a directory's children (first match). -/
def findEntry (cs : List (Name × FSNode)) (a : Name) : Option FSNode :=
  match cs with
  | [] => none
  | (b, c) :: r => if b = a then some c else findEntry r a

/-- Resolve a path in the snapshot.  Because paths are innermost-first, the
resolution of `a :: rest` first resolves the parent `rest` and then steps into
child `a`. -/
def lookupFS (t : FSNode) : FPath → Option FSNode
  | [] => some t
  | a :: rest =>
      match lookupFS t rest with
      | some (.dir cs) => findEntry cs a
      | _ => none

/-- `path.is_dir()` against the snapshot. -/
def isDirFS (t : FSNode) (p : FPath) : Bool :=
  match lookupFS t p with
  | some (.dir _) => true
  | _ => false

/-- `path.is_file()` against the snapshot. -/
def isFileFS (t : FSNode) (p : FPath) : Bool :=
  match lookupFS t p with
  | some .file => true
  | _ => false

/-- The child names a directory lists (`iterdir` order = declaration order). -/
def childNamesFS (t : FSNode) (p : FPath) : List Name :=
  match lookupFS t p with
  | some (.dir cs) => cs.map Prod.fst
  | _ => []

/-- `path.iterdir()`: the full child paths of `p`. -/
def iterdir (t : FSNode) (p : FPath) : List FPath :=
  (childNamesFS t p).map (fun a => a :: p)

/-! ### Well-formed filesystems

A real directory cannot contain two entries with the same name; the claims
implicitly assume this (and `iterdir` can never yield duplicates). -/

/-- No duplicate names in a listing. -/
def namesNodup (l : List Name) : Bool :=
  match l with
  | [] => true
  | a :: r => (!r.contains a) && namesNodup r

mutual
/-- Well-formedness: every directory's child names are pairwise distinct. -/
def fsWF : FSNode → Bool
  | .file => true
  | .dir cs => namesNodup (cs.map Prod.fst) && fsWFList cs

/-- Well-formedness of a child list. -/
def fsWFList : List (Name × FSNode) → Bool
  | [] => true
  | (_, c) :: r => fsWF c && fsWFList r
end

/-! ### `_build_tree` (ui.py lines 79-123)

`_build_tree` records `path_to_state[directory] = 0`, sorts
`directory.iterdir()` (Python sorts `Path` objects of a common parent exactly
by their final name, codepoint-wise), splits the entries into directories and
files, recurses into each directory and then adds each file as a leaf.
The tree therefore discovers paths in pre-order, directories first, both
groups sorted by name.  Note `_build_tree` performs *no* ignore filtering:
it enumerates `directory.iterdir()` directly. -/

/-- Stable insertion into a name-sorted entry list (`sorted` is stable). -/
def insertE (e : Name × FSNode) : List (Name × FSNode) → List (Name × FSNode)
  | [] => [e]
  | f :: r => if e.1 ≤ f.1 then e :: f :: r else f :: insertE e r

/-- Stable sort of a directory listing by entry name, modelling Python's
`sorted` on the `Path` objects of a single directory (which compares the
final path segments codepoint-wise). -/
def sortEntries : List (Name × FSNode) → List (Name × FSNode)
  | [] => []
  | e :: r => insertE e (sortEntries r)

/-- `entry.is_dir()` on a listed entry. -/
def entryIsDir (e : Name × FSNode) : Bool :=
  match e.2 with
  | .dir _ => true
  | .file => false

/-- `entry.is_file()` on a listed entry. -/
def entryIsFile (e : Name × FSNode) : Bool :=
  match e.2 with
  | .file => true
  | .dir _ => false

/-- The order in which `_build_tree` processes the children of a directory:
the sorted entries that are directories, then the sorted entries that are
files (ui.py lines 96-123). -/
def buildOrderEntries (cs : List (Name × FSNode)) : List (Name × FSNode) :=
  (sortEntries cs).filter entryIsDir ++ (sortEntries cs).filter entryIsFile

theorem perm_insertE (e : Name × FSNode) (l : List (Name × FSNode)) :
    List.Perm (insertE e l) (e :: l) := by
  induction l with
  | nil => simp [insertE]
  | cons g s ihs =>
      by_cases h : e.1 ≤ g.1
      · simp [insertE, h]
      · simp only [insertE, h, if_neg]
        exact (ihs.cons g).trans (List.Perm.swap e g s)

theorem perm_sortEntries (l : List (Name × FSNode)) :
    List.Perm (sortEntries l) l := by
  induction l with
  | nil => simp [sortEntries]
  | cons e r ih =>
      exact (perm_insertE e (sortEntries r)).trans (ih.cons e)

theorem mem_sortEntries {e : Name × FSNode} {l : List (Name × FSNode)} :
    e ∈ sortEntries l ↔ e ∈ l :=
  (perm_sortEntries l).mem_iff

/-- Every entry is a directory entry or a file entry, so the
directories-then-files arrangement is a permutation of the full listing. -/
theorem perm_buildOrderEntries (cs : List (Name × FSNode)) :
    List.Perm (buildOrderEntries cs) cs := by
  have hf : ∀ e : Name × FSNode, (!entryIsDir e) = entryIsFile e := by
    intro e
    rcases e with ⟨a, c⟩
    cases c <;> rfl
  have hsplit :
      List.Perm
        ((sortEntries cs).filter entryIsDir ++ (sortEntries cs).filter entryIsFile)
        (sortEntries cs) := by
    have h := List.filter_append_perm entryIsDir (sortEntries cs)
    simpa only [hf] using h
  exact hsplit.trans (perm_sortEntries cs)

theorem mem_buildOrderEntries {e : Name × FSNode} {cs : List (Name × FSNode)} :
    e ∈ buildOrderEntries cs ↔ e ∈ cs :=
  (perm_buildOrderEntries cs).mem_iff

mutual
/-- Size of a snapshot node (termination measure for descent recursions). -/
def fsSize : FSNode → Nat
  | .file => 1
  | .dir cs => 1 + fsListSize cs

/-- Size of a listing. -/
def fsListSize : List (Name × FSNode) → Nat
  | [] => 0
  | (_, c) :: r => 1 + fsSize c + fsListSize r
end

/-- Weight of one listed entry. -/
def entryWeight (e : Name × FSNode) : Nat := fsSize e.2 + 1

theorem sum_entryWeight (cs : List (Name × FSNode)) :
    (cs.map entryWeight).sum = fsListSize cs := by
  induction cs with
  | nil => simp [fsListSize]
  | cons e r ih =>
      rcases e with ⟨a, c⟩
      simp only [List.map_cons, List.sum_cons, entryWeight, fsListSize, ih]
      omega

mutual
/-- The discovery order of `_build_tree` starting at node `n` placed at path
`p`: the node's own path, then (for a directory) the recursively discovered
paths of the sorted directory children followed by the sorted file children.
This is simultaneously the key insertion order of `path_to_state` /
`path_to_node` after `_build_tree` (re-assigning `path_to_state[d] = 0` when
recursing into a directory does not move the key, and recursing into a
directory child inserts its own path first, same position as the parent loop
already inserted it). -/
def build_tree_paths : FSNode → FPath → List FPath
  | .file, p => [p]
  | .dir cs, p => p :: build_list (buildOrderEntries cs) p
  termination_by n _ => fsSize n
  decreasing_by
    simp only [fsSize]
    have h1 : ((buildOrderEntries cs).map entryWeight).sum =
        (cs.map entryWeight).sum :=
      ((perm_buildOrderEntries cs).map entryWeight).sum_eq
    have h2 := sum_entryWeight cs
    omega

/-- Discovery of a processed child list. -/
def build_list : List (Name × FSNode) → FPath → List FPath
  | [], _ => []
  | e :: r, p => build_tree_paths e.2 (e.1 :: p) ++ build_list r p
  termination_by l _ => (l.map entryWeight).sum
  decreasing_by
    · simp only [List.map_cons, List.sum_cons, entryWeight]
      omega
    · simp only [List.map_cons, List.sum_cons, entryWeight]
      omega
end

/-! ### Selection-state operations (ui.py lines 125-203)

`set_path_state(path, state, propagate_to_children, update_parent)` mutates
`path_to_state` and is the only mutator.  We split it the way the flags
split it in the source:

* the *descent* phase is `set_path_state(child, state, True, False)` as
  invoked from `_propagate_state_to_children`: assign, then recurse into
  filesystem children that are present in `path_to_state` when the state is
  0 or 2 — `downNode`/`downList` below;
* `_update_parents` walks to the parent, recomputes its state from
  `_collect_child_states`, stores it via
  `set_path_state(parent, st, False)` (which itself runs `_update_parents`
  on the parent), and then calls `_update_parents(parent)` again;
* the public default-flag call is descent followed by `_update_parents`.

The trailing `self.path_to_node[path].refresh()` only matters for a path with
no node, where the subscript raises `KeyError`; `set_path_state_checked`
models that outcome.  All other statements of `set_path_state` mutate state
before that line runs. -/

/-- The directory-state computation inside `_update_parents` (ui.py lines
170-176): fully selected if there are children and all are 2, unselected if
there are children and all are 0, otherwise partial. -/
def derivedState (cs : List Nat) : Nat :=
  if (!cs.isEmpty) && cs.all (fun s => s == 2) then 2
  else if (!cs.isEmpty) && cs.all (fun s => s == 0) then 0
  else 1

/-- The invariant function as the specification words it (spec §3):
`FullySelected` iff all children are fully selected and there is at least one
child; `Unselected` iff all children are unselected, including the case of
zero children; otherwise `Partial`. -/
def specInvFun (cs : List Nat) : Nat :=
  if (!cs.isEmpty) && cs.all (fun s => s == 2) then 2
  else if cs.all (fun s => s == 0) then 0
  else 1

theorem derivedState_eq_specInvFun {cs : List Nat} (h : cs ≠ []) :
    derivedState cs = specInvFun cs := by
  have : cs.isEmpty = false := by
    cases cs with
    | nil => exact absurd rfl h
    | cons a r => rfl
  simp [derivedState, specInvFun, this]

/-- `_collect_child_states` (ui.py lines 181-189): the states of all
filesystem children of a directory, default 0 for paths missing from
`path_to_state`. -/
def collect_child_states (t : FSNode) (m : StMap) (p : FPath) : List Nat :=
  (iterdir t p).map (fun c => dictGetD m c)

/-- `get_path_state` (ui.py lines 125-127). -/
def get_path_state (m : StMap) (p : FPath) : Nat :=
  dictGetD m p

/-- `_update_parents` (ui.py lines 161-189).  For `path`'s parent (when it is
a key of `path_to_state`): compute the derived state, store it with
`set_path_state(parent, st, False)` — assignment plus a recursive
`_update_parents(parent)`, since `update_parent` defaults to `True` — and
then run the explicit `self._update_parents(parent_dir)` call.  Recursion
stops at the root, whose parent is itself. -/
def update_parents (t : FSNode) (m : StMap) : FPath → StMap
  | [] => m
  | _ :: parent =>
      if hasKey m parent then
        let st := derivedState (collect_child_states t m parent)
        let m1 := update_parents t (dictSet m parent st) parent
        update_parents t m1 parent
      else m

mutual
/-- Descent phase of `set_path_state` at a path `p` resolving to snapshot
node `n`: assign the state, and if the path is a directory, run
`_propagate_state_to_children` (ui.py lines 152-159). -/
def downNode (n : FSNode) (p : FPath) (s : Nat) (m : StMap) : StMap :=
  match n with
  | .file => dictSet m p s
  | .dir cs => downList cs p s (dictSet m p s)

/-- `_propagate_state_to_children` body: for each child of the directory (in
`iterdir` order), if the state is 0 or 2 and the child path is a key of
`path_to_state`, recurse with `set_path_state(child, state, True, False)`. -/
def downList (cs : List (Name × FSNode)) (p : FPath) (s : Nat) (m : StMap) :
    StMap :=
  match cs with
  | [] => m
  | (a, c) :: rest =>
      let m' := if (s == 0 || s == 2) && hasKey m (a :: p)
        then downNode c (a :: p) s m else m
      downList rest p s m'
end

/-- `set_path_state(path, state)` with the default flags
(`propagate_to_children = update_parent = True`), as a pure map transformer:
assign and propagate downwards, then `_update_parents`.  A path that does not
resolve in the snapshot has `path.is_dir() = False`, so only the assignment
happens before `_update_parents`. -/
def set_path_state (t : FSNode) (m : StMap) (p : FPath) (s : Nat) : StMap :=
  let mDown :=
    match lookupFS t p with
    | some n => downNode n p s m
    | none => dictSet m p s
  update_parents t mDown p

/-- `set_path_state` including the final
`self.path_to_node[path].refresh()`: when `path` has no node the subscript
raises `KeyError` — after the state mutations above already ran.  The error
payload records the mutated map the object is left with. -/
def set_path_state_checked (t : FSNode) (m : StMap) (p : FPath) (s : Nat) :
    Except StMap StMap :=
  let m' := set_path_state t m p s
  if p ∈ build_tree_paths t [] then .ok m' else .error m'

/-- True when the call returned normally, false when an exception escaped. -/
def exceptOk : Except StMap StMap → Bool
  | .ok _ => true
  | .error _ => false

/-- `toggle_selection` (ui.py lines 191-203) on the path of a node: partially
or not selected becomes fully selected, otherwise not selected. -/
def toggle_selection (t : FSNode) (m : StMap) (p : FPath) : StMap :=
  let cur := get_path_state m p
  if cur == 0 || cur == 1 then set_path_state t m p 2
  else set_path_state t m p 0

/-- `_collect_selected_files` (ui.py lines 343-353): every `path_to_state`
item, in dict order, whose state is 2 and which is not a directory. -/
def collect_selected_files (t : FSNode) (m : StMap) : List FPath :=
  (m.filter (fun e => e.2 == 2 && !isDirFS t e.1)).map Prod.fst

/-- The `path_to_state` contents right after `_build_tree`: every discovered
path bound to 0, in discovery order. -/
def initStMap (t : FSNode) : StMap :=
  (build_tree_paths t []).map (fun p => (p, 0))

/-! ### UI call sequences

The UI layer mutates the tree only through `toggle_selection` and
`set_path_state` (with states 0 or 2, the only values the widget ever
passes). -/

/-- One user-driven tree mutation. -/
inductive UIOp where
  | setSel (p : FPath) (s : Nat)
  | togSel (p : FPath)
deriving Repr

/-- Run one operation. -/
def applyOp (t : FSNode) (m : StMap) : UIOp → StMap
  | .setSel p s => set_path_state t m p s
  | .togSel p => toggle_selection t m p

/-- Run a sequence of operations. -/
def applyOps (t : FSNode) (ops : List UIOp) (m : StMap) : StMap :=
  ops.foldl (applyOp t) m

/-- An operation within the documented input domain: its path has a node, and
a direct `set_path_state` uses 0 or 2 (a directory is never force-set to
partial; the UI only ever passes 0 or 2). -/
def validOp (t : FSNode) : UIOp → Prop
  | .setSel p s => p ∈ build_tree_paths t [] ∧ (s = 0 ∨ s = 2)
  | .togSel p => p ∈ build_tree_paths t []

/-! ### `ignore_manager.py` and `main.py` collaborators -/

/-- Models Python's `fnmatch.fnmatch` (stdlib collaborator of
`should_ignore`) for patterns built from literal characters, `*` and `?`,
case-sensitively as on POSIX. -/
def globMatch : List Char → List Char → Bool
  | [], [] => true
  | [], _ :: _ => false
  | '*' :: pr, [] => globMatch pr []
  | '*' :: pr, c :: nr => globMatch pr (c :: nr) || globMatch ('*' :: pr) nr
  | '?' :: pr, _ :: nr => globMatch pr nr
  | '?' :: _, [] => false
  | pc :: pr, c :: nr => (pc == c) && globMatch pr nr
  | _ :: _, [] => false
  termination_by pat nm => (nm.length, pat.length)

/-- `should_ignore` (ignore_manager.py lines 59-76): the path's base name
matches some pattern.  The base name of an innermost-first path is its head.
-/
def should_ignore (p : FPath) (patterns : List String) : Bool :=
  patterns.any (fun pat => globMatch pat.data (p.headD "").data)

/-- The outcome `app_main` observes from
`feed_llm.ui.run_file_selection_app` (the UI session is an external
collaborator of the controller): the run raised `KeyboardInterrupt`, raised
some other exception (uncaught, so it propagates out of `app_main`), or
finished with a selection (possibly `None`) and a save flag. -/
inductive UIResult where
  | interrupted : UIResult
  | crashed : UIResult
  | finished : Option (List FPath) → Bool → UIResult
deriving Repr

/-- `_save_state` (main.py lines 77-92): overwrite the state file for this
root with the selected paths (already root-relative in this model). -/
def save_state (selected : List FPath) : Option (List FPath) :=
  some selected

/-- `_load_state` (main.py lines 58-74): the stored list, or `[]` when the
state file is missing (or unreadable). -/
def load_state (store : Option (List FPath)) : List FPath :=
  store.getD []

/-- The persistence-relevant control flow of `app_main` (main.py lines
107-167) for one root directory: given the pre-session content of the state
file and the UI outcome, return the post-session content of the state file
and whether `_save_state` was invoked.  `KeyboardInterrupt` returns early;
any other exception propagates; a `None` selection returns early; otherwise
`_save_state` runs exactly when the save flag is set. -/
def app_main_model (prev : Option (List FPath)) :
    UIResult → Option (List FPath) × Bool
  | .interrupted => (prev, false)
  | .crashed => (prev, false)
  | .finished none _ => (prev, false)
  | .finished (some sel) flag =>
      if flag then (save_state sel, true) else (prev, false)

/-! ### Derived notions used throughout the development -/

/-- `q` is a strict ancestor of `p` (a proper iterated `Path.parent`). -/
def strAnc (q p : FPath) : Prop :=
  ∃ e : FPath, e ≠ [] ∧ p = e ++ q

/-- `q` is `p` or a descendant of `p`. -/
def descOf (q p : FPath) : Prop :=
  ∃ ext : FPath, q = ext ++ p

/-- The keys of `path_to_state` are exactly the discovered node paths (in
discovery order); true after `build` and preserved by every operation. -/
def keysInv (t : FSNode) (m : StMap) : Prop :=
  dictKeys m = build_tree_paths t []

/-- The tree invariant: `path_to_state` has exactly the discovered keys, and
every discovered directory with at least one child stores the derived state
of its children's states. -/
def stInv (t : FSNode) (m : StMap) : Prop :=
  keysInv t m ∧
  ∀ (d : FPath) (cs : List (Name × FSNode)),
    lookupFS t d = some (.dir cs) → cs ≠ [] →
    dictGetD m d = derivedState (collect_child_states t m d)

/-! ### Concrete snapshots used by witnesses and counterexamples -/

/-- A directory `D` with two files `x`, `y` (the spec's propagation example).
-/
def fsA : FSNode := .dir [("D", .dir [("x", .file), ("y", .file)])]

/-- A root containing one empty directory `d`. -/
def fsB : FSNode := .dir [("d", .dir [])]

/-- A root with files `a.log`, `b.txt` and a subdirectory `sub`. -/
def fsC : FSNode := .dir [("b.txt", .file), ("a.log", .file),
  ("sub", .dir [("z", .file)])]

/-- Modelled from the spec: the `restore` step is missing from src
(`run_file_selection_app` in ui.py accepts no `saved_state`, although
`app_main` in main.py passes one and expects a `(selected, save_flag)`
tuple).  Following spec §4.2 `restore`: for each saved root-relative path (in
order), if the path exists in the tree, call `set_state(path,
FullySelected)`; unknown or stale saved paths are silently skipped. -/
def restore_saved_state (t : FSNode) (saved : List FPath) (m : StMap) :
    StMap :=
  saved.foldl (fun acc p =>
    if p ∈ build_tree_paths t [] then set_path_state t acc p 2 else acc) m

/-! ### Dictionary lemmas -/

theorem dictGet_set_self (m : StMap) (p : FPath) (s : Nat) :
    dictGet (dictSet m p s) p = some s := by
  induction m with
  | nil => simp [dictSet, dictGet]
  | cons e r ih =>
      rcases e with ⟨q, v⟩
      by_cases h : q = p
      · simp [dictSet, dictGet, h]
      · simp [dictSet, dictGet, h, ih]

theorem dictGet_set_ne (m : StMap) (p q : FPath) (s : Nat) (h : q ≠ p) :
    dictGet (dictSet m p s) q = dictGet m q := by
  induction m with
  | nil =>
      simp only [dictSet, dictGet]
      rw [if_neg (fun hh => h hh.symm)]
  | cons e r ih =>
      rcases e with ⟨k, v⟩
      by_cases hk : k = p
      · simp only [dictSet, if_pos hk, dictGet]
        rw [if_neg (fun hh => h (hh.symm.trans hk)),
          if_neg (fun hh => h (hh.symm.trans hk))]
      · simp only [dictSet, if_neg hk, dictGet]
        by_cases hq : k = q <;> simp [hq, ih]

theorem dictGetD_set_self (m : StMap) (p : FPath) (s : Nat) :
    dictGetD (dictSet m p s) p = s := by
  simp [dictGetD, dictGet_set_self]

theorem dictGetD_set_ne (m : StMap) (p q : FPath) (s : Nat) (h : q ≠ p) :
    dictGetD (dictSet m p s) q = dictGetD m q := by
  simp [dictGetD, dictGet_set_ne m p q s h]

theorem dictKeys_set_of_hasKey (m : StMap) (p : FPath) (s : Nat)
    (h : hasKey m p = true) :
    dictKeys (dictSet m p s) = dictKeys m := by
  induction m with
  | nil => simp [hasKey, dictGet] at h
  | cons e r ih =>
      rcases e with ⟨k, v⟩
      by_cases hk : k = p
      · simp [dictSet, hk, dictKeys]
      · have h' : hasKey r p = true := by
          simpa [hasKey, dictGet, hk] using h
        simp only [dictSet, if_neg hk, dictKeys, List.map_cons]
        have hih := ih h'
        simp only [dictKeys] at hih
        rw [hih]

theorem hasKey_set (m : StMap) (p q : FPath) (s : Nat) :
    hasKey (dictSet m p s) q = (q = p || hasKey m q) := by
  by_cases h : q = p
  · subst h
    simp [hasKey, dictGet_set_self]
  · simp [hasKey, dictGet_set_ne m p q s h, h]

theorem hasKey_iff_mem_dictKeys (m : StMap) (q : FPath) :
    hasKey m q = true ↔ q ∈ dictKeys m := by
  induction m with
  | nil => simp [hasKey, dictGet, dictKeys]
  | cons e r ih =>
      rcases e with ⟨k, v⟩
      by_cases hk : k = q
      · simp [hasKey, dictGet, hk, dictKeys]
      · simp [hasKey, dictGet, hk, dictKeys, Ne.symm hk] at ih ⊢
        exact ih

/-- Lookup in a map of the shape `l.map (fun p => (p, 0))`. -/
theorem dictGet_const_zero (l : List FPath) (q : FPath) :
    dictGet (l.map (fun p => (p, 0))) q = if q ∈ l then some 0 else none := by
  induction l with
  | nil => simp [dictGet]
  | cons a r ih =>
      by_cases h : a = q
      · simp [dictGet, h]
      · simp [dictGet, h, ih, Ne.symm h]

theorem dictKeys_const_zero (l : List FPath) :
    dictKeys (l.map (fun p => (p, 0))) = l := by
  induction l with
  | nil => rfl
  | cons a r ih => simp [dictKeys] at ih ⊢; exact ih

/-! ### Ancestors and descendants of innermost-first paths -/



theorem strAnc_nil_right (q : FPath) : ¬ strAnc q [] := by
  rintro ⟨e, he, hq⟩
  exact he (List.append_eq_nil.mp hq.symm).1

theorem strAnc_cons_iff (q : FPath) (a : Name) (par : FPath) :
    strAnc q (a :: par) ↔ q = par ∨ strAnc q par := by
  constructor
  · rintro ⟨e, he, hq⟩
    cases e with
    | nil => exact absurd rfl he
    | cons b e' =>
        have hq' : a :: par = b :: (e' ++ q) := by simpa using hq
        have hpar : par = e' ++ q := (List.cons_eq_cons.mp hq').2
        cases e' with
        | nil => exact Or.inl (by simpa using hpar.symm)
        | cons c e'' => exact Or.inr ⟨c :: e'', by simp, hpar⟩
  · rintro (h | ⟨e, he, hq⟩)
    · exact ⟨[a], by simp, by simp [h]⟩
    · exact ⟨a :: e, by simp, by simp [hq]⟩

theorem strAnc_length_lt {q p : FPath} (h : strAnc q p) :
    q.length < p.length := by
  rcases h with ⟨e, he, hp⟩
  subst hp
  have he' : 0 < e.length := List.length_pos.mpr he
  simp only [List.length_append]
  omega

theorem strAnc_irrefl (p : FPath) : ¬ strAnc p p :=
  fun h => absurd (strAnc_length_lt h) (lt_irrefl _)

theorem not_strAnc_of_descOf {q p : FPath} (h : descOf q p) : ¬ strAnc q p := by
  intro hanc
  rcases h with ⟨ext, hq⟩
  have h1 := strAnc_length_lt hanc
  have h2 : q.length = ext.length + p.length := by
    simp [hq, List.length_append]
  omega

theorem descOf_refl (p : FPath) : descOf p p := ⟨[], rfl⟩

/-- Distinct child names head distinct subtrees: a descendant of child `a`
cannot be a descendant of child `b` when `a ≠ b`. -/
theorem desc_child_disjoint {p : FPath} {a b : Name} {q : FPath}
    (ha : descOf q (a :: p)) (hb : descOf q (b :: p)) : a = b := by
  rcases ha with ⟨e1, h1⟩
  rcases hb with ⟨e2, h2⟩
  have heq : e1 ++ a :: p = e2 ++ b :: p := by rw [← h1, ← h2]
  have hlen : e1.length = e2.length := by
    have hl := congrArg List.length heq
    simp [List.length_append] at hl
    omega
  have h3 := (List.append_inj heq hlen).2
  exact (List.cons_eq_cons.mp h3).1

/-! ### Lookup lemmas -/

theorem lookupFS_append (t : FSNode) (e p : FPath) :
    lookupFS t (e ++ p) =
      match lookupFS t p with
      | some n => lookupFS n e
      | none => none := by
  induction e with
  | nil =>
      cases h : lookupFS t p <;> simp [lookupFS, h]
  | cons a e' ih =>
      show lookupFS t (a :: (e' ++ p)) = _
      simp only [lookupFS, ih]
      cases h : lookupFS t p with
      | none => rfl
      | some n => cases n <;> rfl

theorem lookupFS_file (ext : FPath) :
    lookupFS .file ext = if ext = [] then some .file else none := by
  induction ext with
  | nil => rfl
  | cons a rest ih =>
      simp only [lookupFS, ih]
      by_cases h : rest = [] <;> simp [h]

theorem lookupFS_tail_isSome {t : FSNode} {a : Name} {rest : FPath}
    (h : (lookupFS t (a :: rest)).isSome = true) :
    (lookupFS t rest).isSome = true := by
  simp only [lookupFS] at h
  cases hr : lookupFS t rest with
  | none => rw [hr] at h; simp at h
  | some n => simp

theorem lookupFS_append_some {t : FSNode} {p : FPath} {n : FSNode}
    (hp : lookupFS t p = some n) (e : FPath) :
    lookupFS t (e ++ p) = lookupFS n e := by
  have h := lookupFS_append t e p
  rw [hp] at h
  exact h

theorem lookupFS_append_none {t : FSNode} {p : FPath}
    (hp : lookupFS t p = none) (e : FPath) :
    lookupFS t (e ++ p) = none := by
  have h := lookupFS_append t e p
  rw [hp] at h
  exact h

/-- A strict ancestor of an existing path resolves to a directory. -/
theorem lookupFS_anc_isDir {t : FSNode} {q : FPath}
    (h : (lookupFS t q).isSome = true) {r : FPath} (hanc : strAnc r q) :
    isDirFS t r = true := by
  rcases hanc with ⟨e, he, hq⟩
  cases e with
  | nil => exact absurd rfl he
  | cons b e' =>
      subst hq
      have h1 : (lookupFS t (b :: (e' ++ r))).isSome = true := by
        simpa using h
      have h2 : ∃ cs, lookupFS t (e' ++ r) = some (.dir cs) := by
        simp only [lookupFS] at h1
        cases hr : lookupFS t (e' ++ r) with
        | none => rw [hr] at h1; simp at h1
        | some n =>
            cases n with
            | file => rw [hr] at h1; simp at h1
            | dir cs => exact ⟨cs, rfl⟩
      rcases h2 with ⟨cs, hcs⟩
      cases hrr : lookupFS t r with
      | none =>
          rw [lookupFS_append_none hrr e'] at hcs
          cases hcs
      | some nr =>
          cases nr with
          | file =>
              rw [lookupFS_append_some hrr e', lookupFS_file] at hcs
              by_cases hne : e' = [] <;> simp [hne] at hcs
          | dir _ => simp [isDirFS, hrr]

theorem findEntry_mem {cs : List (Name × FSNode)} {a : Name} {c : FSNode}
    (h : findEntry cs a = some c) : (a, c) ∈ cs := by
  induction cs with
  | nil => simp [findEntry] at h
  | cons e r ih =>
      rcases e with ⟨b, d⟩
      by_cases hb : b = a
      · subst hb
        simp [findEntry] at h
        simp [h]
      · simp only [findEntry, if_neg hb] at h
        exact List.mem_cons_of_mem _ (ih h)

theorem findEntry_isSome_of_mem {cs : List (Name × FSNode)} {a : Name}
    {c : FSNode} (h : (a, c) ∈ cs) : (findEntry cs a).isSome = true := by
  induction cs with
  | nil => simp at h
  | cons e r ih =>
      rcases e with ⟨b, d⟩
      by_cases hb : b = a
      · simp [findEntry, hb]
      · rcases List.mem_cons.mp h with h1 | h1
        · injection h1 with h1a h1b
          exact absurd h1a.symm hb
        · simp only [findEntry, if_neg hb]
          exact ih h1

theorem findEntry_eq_of_mem_nodup {cs : List (Name × FSNode)} {a : Name}
    {c : FSNode} (hnd : namesNodup (cs.map Prod.fst) = true)
    (h : (a, c) ∈ cs) : findEntry cs a = some c := by
  induction cs with
  | nil => simp at h
  | cons e r ih =>
      rcases e with ⟨b, d⟩
      simp only [List.map_cons, namesNodup, Bool.and_eq_true,
        Bool.not_eq_true'] at hnd
      rcases List.mem_cons.mp h with h1 | h1
      · injection h1 with h1a h1b
        subst h1a
        subst h1b
        simp [findEntry]
      · by_cases hb : b = a
        · subst hb
          have hmem : b ∈ r.map Prod.fst := List.mem_map_of_mem Prod.fst h1
          have := hnd.1
          simp [hmem] at this
        · simp only [findEntry, if_neg hb]
          exact ih hnd.2 h1

/-! ### What `build` discovers -/

theorem fsSize_pos (n : FSNode) : 1 ≤ fsSize n := by
  cases n <;> simp [fsSize]

theorem fsSize_lt_of_mem {cs : List (Name × FSNode)} {a : Name} {c : FSNode}
    (h : (a, c) ∈ cs) : fsSize c < fsSize (.dir cs) := by
  have : fsSize c < fsListSize cs + 1 := by
    induction cs with
    | nil => simp at h
    | cons e r ih =>
        rcases e with ⟨b, d⟩
        rcases List.mem_cons.mp h with h1 | h1
        · injection h1 with h1a h1b
          subst h1b
          simp [fsListSize]
          omega
        · have := ih h1
          simp [fsListSize]
          omega
  simp [fsSize]
  omega

theorem fsWFList_fsWF {cs : List (Name × FSNode)} {a : Name} {c : FSNode}
    (h : fsWFList cs = true) (hm : (a, c) ∈ cs) : fsWF c = true := by
  induction cs with
  | nil => simp at hm
  | cons e r ih =>
      rcases e with ⟨b, d⟩
      simp only [fsWFList, Bool.and_eq_true] at h
      rcases List.mem_cons.mp hm with h1 | h1
      · injection h1 with h1a h1b
        subst h1b
        exact h.1
      · exact ih h.2 h1

theorem mem_build_list {es : List (Name × FSNode)} {p q : FPath} :
    q ∈ build_list es p ↔ ∃ e ∈ es, q ∈ build_tree_paths e.2 (e.1 :: p) := by
  induction es with
  | nil => simp [build_list]
  | cons e r ih =>
      simp only [build_list, List.mem_append, ih, List.mem_cons]
      constructor
      · rintro (h | ⟨f, hf, hq⟩)
        · exact ⟨e, Or.inl rfl, h⟩
        · exact ⟨f, Or.inr hf, hq⟩
      · rintro ⟨f, hf | hf, hq⟩
        · subst hf
          exact Or.inl hq
        · exact Or.inr ⟨f, hf, hq⟩

theorem mem_build_aux :
    ∀ (k : Nat) (n : FSNode), fsSize n ≤ k → fsWF n = true →
      ∀ (p q : FPath),
        (q ∈ build_tree_paths n p ↔
          ∃ ext, q = ext ++ p ∧ (lookupFS n ext).isSome = true) := by
  intro k
  induction k with
  | zero =>
      intro n hn
      have := fsSize_pos n
      omega
  | succ k ih =>
      intro n hn hwf p q
      cases n with
      | file =>
          simp only [build_tree_paths, List.mem_singleton]
          constructor
          · intro h
            exact ⟨[], by simpa using h, by simp [lookupFS]⟩
          · rintro ⟨ext, hq, hext⟩
            rw [lookupFS_file] at hext
            by_cases he : ext = []
            · subst he
              simpa using hq
            · simp [he] at hext
      | dir cs =>
          have hnd : namesNodup (cs.map Prod.fst) = true := by
            simp only [fsWF, Bool.and_eq_true] at hwf
            exact hwf.1
          have hwfl : fsWFList cs = true := by
            simp only [fsWF, Bool.and_eq_true] at hwf
            exact hwf.2
          simp only [build_tree_paths, List.mem_cons, mem_build_list]
          constructor
          · rintro (h | ⟨e, he, hq⟩)
            · exact ⟨[], by simpa using h, by simp [lookupFS]⟩
            · rcases e with ⟨a, c⟩
              have hecs : (a, c) ∈ cs := mem_buildOrderEntries.mp he
              have hsz : fsSize c ≤ k := by
                have := fsSize_lt_of_mem hecs
                omega
              have hwfc : fsWF c = true := fsWFList_fsWF hwfl hecs
              rcases (ih c hsz hwfc (a :: p) q).mp hq with ⟨ext', hq', hsome⟩
              refine ⟨ext' ++ [a], by simpa using hq', ?_⟩
              have hstep : lookupFS (.dir cs) [a] = some c := by
                simp only [lookupFS]
                exact findEntry_eq_of_mem_nodup hnd hecs
              rw [lookupFS_append_some hstep ext']
              exact hsome
          · rintro ⟨ext, hq, hsome⟩
            rcases List.eq_nil_or_concat ext with he | ⟨ext', a, he⟩
            · subst he
              exact Or.inl (by simpa using hq)
            · subst he
              have hcat : ext'.concat a = ext' ++ [a] := List.concat_eq_append ext' a
              rw [hcat] at hq hsome
              have hfe : ∃ c, findEntry cs a = some c := by
                cases hf : findEntry cs a with
                | none =>
                    have hstep : lookupFS (.dir cs) [a] = none := by
                      simp only [lookupFS]
                      exact hf
                    rw [lookupFS_append_none hstep ext'] at hsome
                    simp at hsome
                | some c => exact ⟨c, rfl⟩
              rcases hfe with ⟨c, hf⟩
              have hecs : (a, c) ∈ cs := findEntry_mem hf
              have hstep : lookupFS (.dir cs) [a] = some c := by
                simp only [lookupFS]
                exact hf
              rw [lookupFS_append_some hstep ext'] at hsome
              have hsz : fsSize c ≤ k := by
                have := fsSize_lt_of_mem hecs
                omega
              have hwfc : fsWF c = true := fsWFList_fsWF hwfl hecs
              refine Or.inr ⟨(a, c), mem_buildOrderEntries.mpr hecs, ?_⟩
              exact (ih c hsz hwfc (a :: p) q).mpr ⟨ext', by simpa using hq, hsome⟩

/-- A path is discovered by `_build_tree` exactly when it resolves in the
snapshot (below the start path). -/
theorem mem_build {n : FSNode} (hwf : fsWF n = true) (p q : FPath) :
    q ∈ build_tree_paths n p ↔
      ∃ ext, q = ext ++ p ∧ (lookupFS n ext).isSome = true :=
  mem_build_aux (fsSize n) n le_rfl hwf p q

/-- Specialization to the root: the tree's node set is exactly the set of
resolving paths. -/
theorem mem_build_root {t : FSNode} (hwf : fsWF t = true) (q : FPath) :
    q ∈ build_tree_paths t [] ↔ (lookupFS t q).isSome = true := by
  rw [mem_build hwf]
  constructor
  · rintro ⟨ext, hq, hsome⟩
    simpa [hq] using hsome
  · intro h
    exact ⟨q, by simp, h⟩

/-! ### `_update_parents` lemmas -/

theorem cons_ne_parent (b : Name) (p : FPath) : b :: p ≠ p := by
  intro h
  have := congrArg List.length h
  simp at this

theorem not_strAnc_cons_self (b : Name) (p : FPath) : ¬ strAnc (b :: p) p := by
  intro h
  have := strAnc_length_lt h
  simp at this

theorem hasKey_eq_of_dictKeys_eq {u m : StMap} (h : dictKeys u = dictKeys m)
    (q : FPath) : hasKey u q = hasKey m q := by
  by_cases hq : q ∈ dictKeys m
  · rw [(hasKey_iff_mem_dictKeys u q).mpr (h ▸ hq),
      (hasKey_iff_mem_dictKeys m q).mpr hq]
  · have h1 : q ∉ dictKeys u := by rw [h]; exact hq
    have h2 : hasKey u q = false := by
      cases hh : hasKey u q
      · rfl
      · exact absurd ((hasKey_iff_mem_dictKeys u q).mp hh) h1
    have h3 : hasKey m q = false := by
      cases hh : hasKey m q
      · rfl
      · exact absurd ((hasKey_iff_mem_dictKeys m q).mp hh) hq
    rw [h2, h3]

theorem up_keys (t : FSNode) (p : FPath) :
    ∀ m : StMap, dictKeys (update_parents t m p) = dictKeys m := by
  induction p with
  | nil => intro m; rfl
  | cons a parent ih =>
      intro m
      by_cases hk : hasKey m parent
      · simp only [update_parents, if_pos hk]
        rw [ih, ih, dictKeys_set_of_hasKey m parent _ hk]
      · simp only [update_parents, if_neg hk]

theorem up_frame (t : FSNode) (p : FPath) :
    ∀ (m : StMap) (q : FPath), ¬ strAnc q p →
      dictGetD (update_parents t m p) q = dictGetD m q := by
  induction p with
  | nil => intro m q _; rfl
  | cons a parent ih =>
      intro m q hq
      by_cases hk : hasKey m parent
      · simp only [update_parents, if_pos hk]
        have hne : q ≠ parent := fun h =>
          hq ((strAnc_cons_iff q a parent).mpr (Or.inl h))
        have hna : ¬ strAnc q parent := fun h =>
          hq ((strAnc_cons_iff q a parent).mpr (Or.inr h))
        rw [ih _ q hna, ih _ q hna, dictGetD_set_ne m parent q _ hne]
      · simp only [update_parents, if_neg hk]

theorem up_post (t : FSNode) (p : FPath) :
    ∀ m : StMap, (∀ r, strAnc r p → hasKey m r = true) →
      ∀ q, strAnc q p →
        dictGetD (update_parents t m p) q =
          derivedState (collect_child_states t (update_parents t m p) q) := by
  induction p with
  | nil =>
      intro m _ q hq
      exact absurd hq (strAnc_nil_right q)
  | cons a parent ih =>
      intro m hkeys q hq
      have hpk : hasKey m parent = true :=
        hkeys parent ((strAnc_cons_iff parent a parent).mpr (Or.inl rfl))
      simp only [update_parents, if_pos hpk]
      have hkeys1 : ∀ r, strAnc r parent →
          hasKey (update_parents t
            (dictSet m parent
              (derivedState (collect_child_states t m parent))) parent) r
            = true := by
        intro r hr
        rw [hasKey_eq_of_dictKeys_eq (up_keys t parent _) r, hasKey_set]
        rcases eq_or_ne r parent with h | h
        · simp [h]
        · have : hasKey m r = true :=
            hkeys r ((strAnc_cons_iff r a parent).mpr (Or.inr hr))
          simp [this]
      rcases (strAnc_cons_iff q a parent).mp hq with h | h
      · -- q is exactly the parent of the updated path
        subst h
        have hfr1 : dictGetD (update_parents t
            (update_parents t
              (dictSet m q (derivedState (collect_child_states t m q))) q) q) q
            = derivedState (collect_child_states t m q) := by
          rw [up_frame t q _ q (strAnc_irrefl q),
            up_frame t q _ q (strAnc_irrefl q), dictGetD_set_self]
        rw [hfr1]
        have hchild : collect_child_states t
            (update_parents t
              (update_parents t
                (dictSet m q (derivedState (collect_child_states t m q))) q) q) q
            = collect_child_states t m q := by
          unfold collect_child_states
          apply List.map_congr_left
          intro c hc
          rcases List.mem_map.mp hc with ⟨b, _, hb⟩
          subst hb
          rw [up_frame t q _ _ (not_strAnc_cons_self b q),
            up_frame t q _ _ (not_strAnc_cons_self b q),
            dictGetD_set_ne m q _ _ (cons_ne_parent b q)]
        rw [hchild]
      · -- q is a strict ancestor of the parent: handled by the second
        -- recursive `_update_parents` run
        exact ih _ hkeys1 q h

/-! ### Descent-phase lemmas -/

mutual
theorem downNode_keys (n : FSNode) (p : FPath) (s : Nat) (m : StMap)
    (h : hasKey m p = true) : dictKeys (downNode n p s m) = dictKeys m := by
  cases n with
  | file => exact dictKeys_set_of_hasKey m p s h
  | dir cs =>
      show dictKeys (downList cs p s (dictSet m p s)) = dictKeys m
      rw [downList_keys cs p s (dictSet m p s), dictKeys_set_of_hasKey m p s h]

theorem downList_keys (cs : List (Name × FSNode)) (p : FPath) (s : Nat)
    (m : StMap) : dictKeys (downList cs p s m) = dictKeys m := by
  cases cs with
  | nil => rfl
  | cons e rest =>
      rcases e with ⟨a, c⟩
      show dictKeys (downList rest p s _) = dictKeys m
      by_cases hg : ((s == 0 || s == 2) && hasKey m (a :: p)) = true
      · have hk : hasKey m (a :: p) = true := (Bool.and_eq_true .. ▸ hg).2
        rw [if_pos hg] at *
        rw [downList_keys rest p s _, downNode_keys c (a :: p) s m hk]
      · rw [if_neg hg]
        exact downList_keys rest p s m
end

mutual
/-- Descent only writes paths inside the subtree of `p`. -/
theorem downNode_frame (n : FSNode) (p : FPath) (s : Nat) (m : StMap)
    (q : FPath) (h : ∀ ext : FPath, q ≠ ext ++ p) :
    dictGetD (downNode n p s m) q = dictGetD m q := by
  cases n with
  | file =>
      exact dictGetD_set_ne m p q s (by simpa using h [])
  | dir cs =>
      show dictGetD (downList cs p s (dictSet m p s)) q = dictGetD m q
      rw [downList_frame cs p s (dictSet m p s) q ?hcs,
        dictGetD_set_ne m p q s (by simpa using h [])]
      case hcs =>
        intro a c _ ext
        have := h (ext ++ [a])
        simpa using this

theorem downList_frame (cs : List (Name × FSNode)) (p : FPath) (s : Nat)
    (m : StMap) (q : FPath)
    (h : ∀ a c, (a, c) ∈ cs → ∀ ext : FPath, q ≠ ext ++ (a :: p)) :
    dictGetD (downList cs p s m) q = dictGetD m q := by
  cases cs with
  | nil => rfl
  | cons e rest =>
      rcases e with ⟨a, c⟩
      show dictGetD (downList rest p s _) q = dictGetD m q
      have hrest : ∀ b d, (b, d) ∈ rest → ∀ ext : FPath, q ≠ ext ++ (b :: p) :=
        fun b d hm ext => h b d (List.mem_cons_of_mem _ hm) ext
      by_cases hg : ((s == 0 || s == 2) && hasKey m (a :: p)) = true
      · rw [if_pos hg]
        rw [downList_frame rest p s _ q hrest]
        exact downNode_frame c (a :: p) s m q
          (fun ext => h a c (List.mem_cons_self ..) ext)
      · rw [if_neg hg]
        exact downList_frame rest p s m q hrest
end

theorem fsWF_dir_nodup {cs : List (Name × FSNode)}
    (h : fsWF (.dir cs) = true) : namesNodup (cs.map Prod.fst) = true := by
  simp only [fsWF, Bool.and_eq_true] at h
  exact h.1

theorem fsWF_dir_list {cs : List (Name × FSNode)}
    (h : fsWF (.dir cs) = true) : fsWFList cs = true := by
  simp only [fsWF, Bool.and_eq_true] at h
  exact h.2

theorem fsWFList_cons_head {a : Name} {c : FSNode}
    {rest : List (Name × FSNode)} (h : fsWFList ((a, c) :: rest) = true) :
    fsWF c = true := by
  simp only [fsWFList, Bool.and_eq_true] at h
  exact h.1

theorem fsWFList_cons_tail {a : Name} {c : FSNode}
    {rest : List (Name × FSNode)} (h : fsWFList ((a, c) :: rest) = true) :
    fsWFList rest = true := by
  simp only [fsWFList, Bool.and_eq_true] at h
  exact h.2

theorem namesNodup_cons_head {a : Name} {l : List Name}
    (h : namesNodup (a :: l) = true) : l.contains a = false := by
  simp only [namesNodup, Bool.and_eq_true, Bool.not_eq_true'] at h
  exact h.1

theorem namesNodup_cons_tail {a : Name} {l : List Name}
    (h : namesNodup (a :: l) = true) : namesNodup l = true := by
  simp only [namesNodup, Bool.and_eq_true] at h
  exact h.2

/-- Fuel-indexed joint statement of the descent-assignment lemmas for
`downNode` and `downList`. -/
theorem down_desc_aux : ∀ k : Nat,
    (∀ (n : FSNode) (p : FPath) (s : Nat) (m : StMap), fsSize n ≤ k →
      fsWF n = true → (s = 0 ∨ s = 2) →
      (∀ ext : FPath, (lookupFS n ext).isSome = true →
        hasKey m (ext ++ p) = true) →
      ∀ ext : FPath, (lookupFS n ext).isSome = true →
        dictGetD (downNode n p s m) (ext ++ p) = s) ∧
    (∀ (cs : List (Name × FSNode)) (p : FPath) (s : Nat) (m : StMap),
      fsListSize cs ≤ k →
      namesNodup (cs.map Prod.fst) = true → fsWFList cs = true →
      (s = 0 ∨ s = 2) →
      (∀ b d, (b, d) ∈ cs → ∀ ext : FPath,
        (lookupFS d ext).isSome = true → hasKey m (ext ++ (b :: p)) = true) →
      ∀ a c, (a, c) ∈ cs → ∀ ext : FPath, (lookupFS c ext).isSome = true →
        dictGetD (downList cs p s m) (ext ++ (a :: p)) = s) := by
  intro k
  induction k with
  | zero =>
      constructor
      · intro n p s m hsz
        have := fsSize_pos n
        omega
      · intro cs p s m hsz hnd hwfl hs hk a c hm
        cases cs with
        | nil => simp at hm
        | cons e rest =>
            rcases e with ⟨b0, c0⟩
            have h1 := fsSize_pos c0
            simp [fsListSize] at hsz
  | succ k ih =>
      obtain ⟨ihA, ihB⟩ := ih
      constructor
      · intro n p s m hsz hwf hs hk ext hext
        cases n with
        | file =>
            rw [lookupFS_file] at hext
            by_cases he : ext = []
            · subst he
              simpa using dictGetD_set_self m p s
            · simp [he] at hext
        | dir cs =>
            show dictGetD (downList cs p s (dictSet m p s)) (ext ++ p) = s
            have hnd : namesNodup (cs.map Prod.fst) = true := fsWF_dir_nodup hwf
            have hwfl : fsWFList cs = true := fsWF_dir_list hwf
            have hszl : fsListSize cs ≤ k := by
              simp [fsSize] at hsz
              omega
            rcases List.eq_nil_or_concat ext with he | ⟨ext', a, he⟩
            · subst he
              simp only [List.nil_append]
              rw [downList_frame cs p s _ p ?hp]
              · simpa using dictGetD_set_self m p s
              case hp =>
                intro b d _ ext2 hcontra
                have := congrArg List.length hcontra
                simp [List.length_append] at this
                omega
            · subst he
              rw [List.concat_eq_append] at hext ⊢
              obtain ⟨c, hf⟩ : ∃ c, findEntry cs a = some c := by
                cases hf : findEntry cs a with
                | none =>
                    have hstep : lookupFS (.dir cs) [a] = none := hf
                    rw [lookupFS_append_none hstep ext'] at hext
                    simp at hext
                | some c => exact ⟨c, rfl⟩
              have hstep : lookupFS (.dir cs) [a] = some c := hf
              rw [lookupFS_append_some hstep ext'] at hext
              have hecs : (a, c) ∈ cs := findEntry_mem hf
              have happ : (ext' ++ [a]) ++ p = ext' ++ (a :: p) := by simp
              rw [happ]
              refine ihB cs p s (dictSet m p s) hszl hnd hwfl hs ?_ a c hecs
                ext' hext
              intro b d hbd ext2 hsome2
              rw [hasKey_set]
              have hstep2 : lookupFS (.dir cs) [b] = some d :=
                findEntry_eq_of_mem_nodup hnd hbd
              have hsome3 : (lookupFS (.dir cs) (ext2 ++ [b])).isSome = true := by
                rw [lookupFS_append_some hstep2 ext2]
                exact hsome2
              have h3 := hk (ext2 ++ [b]) hsome3
              rw [show (ext2 ++ [b]) ++ p = ext2 ++ (b :: p) by simp] at h3
              simp [h3]
      · intro cs p s m hsz hnd hwfl hs hk a c hm ext hext
        cases cs with
        | nil => simp at hm
        | cons e rest =>
            rcases e with ⟨b0, c0⟩
            show dictGetD (downList rest p s _) (ext ++ (a :: p)) = s
            have hkey0 : hasKey m (b0 :: p) = true := by
              have := hk b0 c0 (List.mem_cons_self ..) [] (by simp [lookupFS])
              simpa using this
            have hg : ((s == 0 || s == 2) && hasKey m (b0 :: p)) = true := by
              rcases hs with h | h <;> subst h <;> simp [hkey0]
            rw [if_pos hg]
            have hszc : fsSize c0 ≤ k := by
              simp [fsListSize] at hsz
              omega
            have hszr : fsListSize rest ≤ k := by
              have := fsSize_pos c0
              simp [fsListSize] at hsz
              omega
            have hcontains : (rest.map Prod.fst).contains b0 = false :=
              namesNodup_cons_head (by simpa using hnd)
            rcases List.mem_cons.mp hm with h1 | h1
            · injection h1 with h1a h1b
              subst h1a
              subst h1b
              rw [downList_frame rest p s _ _ ?hfr]
              · exact ihA c (a :: p) s m hszc (fsWFList_cons_head hwfl) hs
                  (hk a c (List.mem_cons_self ..)) ext hext
              case hfr =>
                intro b d hbd ext2 hcontra
                have hab : a = b :=
                  desc_child_disjoint ⟨ext, rfl⟩ ⟨ext2, hcontra⟩
                have hbmem : b ∈ rest.map Prod.fst :=
                  List.mem_map_of_mem Prod.fst hbd
                rw [← hab] at hbmem
                simp [hbmem] at hcontains
            · have hkeq : dictKeys (downNode c0 (b0 :: p) s m) = dictKeys m :=
                downNode_keys c0 (b0 :: p) s m hkey0
              refine ihB rest p s _ hszr
                (namesNodup_cons_tail (by simpa using hnd))
                (fsWFList_cons_tail hwfl) hs ?_ a c h1 ext hext
              intro b d hbd ext2 hsome2
              rw [hasKey_eq_of_dictKeys_eq hkeq]
              exact hk b d (List.mem_cons_of_mem _ hbd) ext2 hsome2

/-- Descent assigns `s` (a 0/2 state) to every path of the subtree that is
present in `path_to_state`; with all subtree paths present, that is the whole
subtree. -/
theorem downNode_desc (n : FSNode) (p : FPath) (s : Nat) (m : StMap)
    (hwf : fsWF n = true) (hs : s = 0 ∨ s = 2)
    (hk : ∀ ext : FPath, (lookupFS n ext).isSome = true →
      hasKey m (ext ++ p) = true) :
    ∀ ext : FPath, (lookupFS n ext).isSome = true →
      dictGetD (downNode n p s m) (ext ++ p) = s :=
  (down_desc_aux (fsSize n)).1 n p s m le_rfl hwf hs hk

/-! ### `set_path_state` characterization -/


theorem keysInv_init (t : FSNode) : keysInv t (initStMap t) :=
  dictKeys_const_zero _

theorem hasKey_keysInv {t : FSNode} {m : StMap} (hwf : fsWF t = true)
    (hki : keysInv t m) (q : FPath) :
    hasKey m q = true ↔ (lookupFS t q).isSome = true := by
  rw [hasKey_iff_mem_dictKeys, hki, mem_build_root hwf]

theorem isDir_isSome {t : FSNode} {r : FPath} (h : isDirFS t r = true) :
    (lookupFS t r).isSome = true := by
  unfold isDirFS at h
  cases hr : lookupFS t r with
  | none => rw [hr] at h; cases h
  | some n => simp

theorem fsWF_lookup {t : FSNode} (hwf : fsWF t = true) :
    ∀ (p : FPath) (n : FSNode), lookupFS t p = some n → fsWF n = true := by
  intro p
  induction p with
  | nil =>
      intro n h
      simp only [lookupFS] at h
      injection h with h
      rw [← h]
      exact hwf
  | cons a rest ih =>
      intro n h
      simp only [lookupFS] at h
      cases hr : lookupFS t rest with
      | none => rw [hr] at h; cases h
      | some nr =>
          rw [hr] at h
          cases nr with
          | file => cases h
          | dir cs =>
              exact fsWFList_fsWF (fsWF_dir_list (ih _ hr)) (findEntry_mem h)

theorem set_path_state_keys {t : FSNode} {m : StMap} (hwf : fsWF t = true)
    (hki : keysInv t m) {p : FPath} (hp : (lookupFS t p).isSome = true)
    (s : Nat) : dictKeys (set_path_state t m p s) = dictKeys m := by
  unfold set_path_state
  rw [up_keys]
  cases hl : lookupFS t p with
  | none => rw [hl] at hp; cases hp
  | some n =>
      exact downNode_keys n p s m ((hasKey_keysInv hwf hki p).mpr hp)

theorem keysInv_set {t : FSNode} {m : StMap} (hwf : fsWF t = true)
    (hki : keysInv t m) {p : FPath} (hp : (lookupFS t p).isSome = true)
    (s : Nat) : keysInv t (set_path_state t m p s) := by
  unfold keysInv
  rw [set_path_state_keys hwf hki hp s]
  exact hki

/-- `set_path_state` with a 0/2 state writes that state to the target and to
its whole discovered subtree. -/
theorem set_path_state_desc {t : FSNode} {m : StMap} (hwf : fsWF t = true)
    (hki : keysInv t m) {p : FPath} (hp : (lookupFS t p).isSome = true)
    {s : Nat} (hs : s = 0 ∨ s = 2) :
    ∀ ext : FPath, (lookupFS t (ext ++ p)).isSome = true →
      dictGetD (set_path_state t m p s) (ext ++ p) = s := by
  intro ext hext
  unfold set_path_state
  rw [up_frame t p _ _ (not_strAnc_of_descOf ⟨ext, rfl⟩)]
  cases hl : lookupFS t p with
  | none => rw [hl] at hp; cases hp
  | some n =>
      have hwfn : fsWF n = true := fsWF_lookup hwf p n hl
      have hext' : (lookupFS n ext).isSome = true := by
        rw [lookupFS_append_some hl ext] at hext
        exact hext
      refine downNode_desc n p s m hwfn hs ?_ ext hext'
      intro ext2 hsome2
      rw [hasKey_keysInv hwf hki, lookupFS_append_some hl ext2]
      exact hsome2

/-- After `set_path_state`, every strict ancestor of the target holds the
derived state of its children (in the final map). -/
theorem set_path_state_anc {t : FSNode} {m : StMap} (hwf : fsWF t = true)
    (hki : keysInv t m) {p : FPath} (hp : (lookupFS t p).isSome = true)
    (s : Nat) :
    ∀ q, strAnc q p →
      dictGetD (set_path_state t m p s) q =
        derivedState
          (collect_child_states t (set_path_state t m p s) q) := by
  unfold set_path_state
  cases hl : lookupFS t p with
  | none => rw [hl] at hp; cases hp
  | some n =>
      refine up_post t p _ ?_
      intro r hr
      have hrd : isDirFS t r = true := lookupFS_anc_isDir hp hr
      have hrs : (lookupFS t r).isSome = true := isDir_isSome hrd
      rw [hasKey_eq_of_dictKeys_eq
        (downNode_keys n p s m ((hasKey_keysInv hwf hki p).mpr hp))]
      exact (hasKey_keysInv hwf hki r).mpr hrs

/-- `set_path_state` leaves every path that is neither in the subtree of the
target nor a strict ancestor of it untouched. -/
theorem set_path_state_frame (t : FSNode) (m : StMap) (p : FPath) (s : Nat)
    (q : FPath) (hna : ¬ strAnc q p) (hnd : ∀ ext : FPath, q ≠ ext ++ p) :
    dictGetD (set_path_state t m p s) q = dictGetD m q := by
  unfold set_path_state
  rw [up_frame t p _ _ hna]
  cases hl : lookupFS t p with
  | none => exact dictGetD_set_ne m p q s (by simpa using hnd [])
  | some n => exact downNode_frame n p s m q hnd

/-! ### The directory-state invariant -/

theorem mem_childNamesFS {t : FSNode} {d : FPath} {cs : List (Name × FSNode)}
    (hd : lookupFS t d = some (.dir cs)) :
    childNamesFS t d = cs.map Prod.fst := by
  unfold childNamesFS
  rw [hd]

theorem lookup_child_isSome {t : FSNode} {d : FPath}
    {cs : List (Name × FSNode)} (hd : lookupFS t d = some (.dir cs))
    {b : Name} (hb : b ∈ cs.map Prod.fst) :
    (lookupFS t (b :: d)).isSome = true := by
  simp only [lookupFS, hd]
  rcases List.mem_map.mp hb with ⟨⟨b', c⟩, hmem, hb'⟩
  cases hb'
  exact findEntry_isSome_of_mem hmem

theorem derivedState_const {l : List Nat} {s : Nat} (hne : l ≠ [])
    (hall : ∀ x ∈ l, x = s) (hs : s = 0 ∨ s = 2) : derivedState l = s := by
  have hin : l.isEmpty = false := by
    cases l with
    | nil => exact absurd rfl hne
    | cons x r => rfl
  rcases hs with h | h
  · subst h
    have h2 : l.all (fun x => x == 2) = false := by
      rcases List.exists_mem_of_ne_nil l hne with ⟨x, hx⟩
      cases hall2 : l.all (fun x => x == 2) with
      | false => rfl
      | true =>
          have hx2 := List.all_eq_true.mp hall2 x hx
          rw [hall x hx] at hx2
          simp at hx2
    have h3 : l.all (fun x => x == 0) = true := by
      rw [List.all_eq_true]
      intro x hx
      simp [hall x hx]
    simp [derivedState, hin, h2, h3]
  · subst h
    have h2 : l.all (fun x => x == 2) = true := by
      rw [List.all_eq_true]
      intro x hx
      simp [hall x hx]
    simp [derivedState, hin, h2]


theorem iterdir_ne_nil {t : FSNode} {d : FPath} {cs : List (Name × FSNode)}
    (hd : lookupFS t d = some (.dir cs)) (hne : cs ≠ []) :
    iterdir t d ≠ [] := by
  unfold iterdir
  rw [mem_childNamesFS hd]
  cases cs with
  | nil => exact absurd rfl hne
  | cons e r => simp

theorem mem_iterdir_lookup {t : FSNode} {d : FPath}
    {cs : List (Name × FSNode)} (hd : lookupFS t d = some (.dir cs))
    {c : FPath} (hc : c ∈ iterdir t d) :
    ∃ b, c = b :: d ∧ (lookupFS t c).isSome = true := by
  unfold iterdir at hc
  rcases List.mem_map.mp hc with ⟨b, hb, hbc⟩
  rw [mem_childNamesFS hd] at hb
  exact ⟨b, hbc.symm, hbc ▸ lookup_child_isSome hd hb⟩

theorem stInv_init {t : FSNode} (hwf : fsWF t = true) :
    stInv t (initStMap t) := by
  refine ⟨keysInv_init t, ?_⟩
  intro d cs hd hne
  have hds : (lookupFS t d).isSome = true := by rw [hd]; rfl
  have hget : ∀ q : FPath, (lookupFS t q).isSome = true →
      dictGetD (initStMap t) q = 0 := by
    intro q hq
    unfold initStMap dictGetD
    rw [dictGet_const_zero]
    simp [(mem_build_root hwf q).mpr hq]
  rw [hget d hds]
  have hchild : ∀ x ∈ collect_child_states t (initStMap t) d, x = 0 := by
    intro x hx
    rcases List.mem_map.mp hx with ⟨c, hc, hxc⟩
    rcases mem_iterdir_lookup hd hc with ⟨b, hbc, hcs⟩
    rw [← hxc]
    exact hget c hcs
  rw [derivedState_const ?_ hchild (Or.inl rfl)]
  unfold collect_child_states
  simp only [ne_eq, List.map_eq_nil_iff]
  exact iterdir_ne_nil hd hne

/-- `set_path_state` with a 0/2 state on a discovered path preserves the
tree invariant. -/
theorem stInv_set {t : FSNode} {m : StMap} (hwf : fsWF t = true)
    (hsi : stInv t m) {p : FPath} (hp : (lookupFS t p).isSome = true)
    {s : Nat} (hs : s = 0 ∨ s = 2) : stInv t (set_path_state t m p s) := by
  obtain ⟨hki, hder⟩ := hsi
  refine ⟨keysInv_set hwf hki hp s, ?_⟩
  intro d cs hd hne
  by_cases hanc : strAnc d p
  · exact set_path_state_anc hwf hki hp s d hanc
  by_cases hdesc : descOf d p
  · rcases hdesc with ⟨ext, hdq⟩
    subst hdq
    have hds : (lookupFS t (ext ++ p)).isSome = true := by rw [hd]; rfl
    rw [set_path_state_desc hwf hki hp hs ext hds]
    have hchild : ∀ x ∈
        collect_child_states t (set_path_state t m p s) (ext ++ p), x = s := by
      intro x hx
      rcases List.mem_map.mp hx with ⟨c, hc, hxc⟩
      rcases mem_iterdir_lookup hd hc with ⟨b, hbc, hcs⟩
      subst hbc
      rw [← hxc]
      have : (b :: ext) ++ p = b :: (ext ++ p) := rfl
      rw [← this] at hcs ⊢
      exact set_path_state_desc hwf hki hp hs (b :: ext) hcs
    rw [derivedState_const ?_ hchild hs]
    unfold collect_child_states
    simp only [ne_eq, List.map_eq_nil_iff]
    exact iterdir_ne_nil hd hne
  · -- untouched directory: state and children states unchanged
    have hndq : ∀ ext : FPath, d ≠ ext ++ p := fun ext hcontra =>
      hdesc ⟨ext, hcontra⟩
    rw [set_path_state_frame t m p s d hanc hndq]
    have hchild : collect_child_states t (set_path_state t m p s) d =
        collect_child_states t m d := by
      unfold collect_child_states
      apply List.map_congr_left
      intro c hc
      rcases mem_iterdir_lookup hd hc with ⟨b, hbc, hcs⟩
      subst hbc
      have hcna : ¬ strAnc (b :: d) p := by
        intro hcontra
        rcases hcontra with ⟨e, he, hpe⟩
        exact hanc ⟨e ++ [b], by simp, by simpa using hpe⟩
      have hcnd : ∀ ext : FPath, b :: d ≠ ext ++ p := by
        intro ext hcontra
        cases ext with
        | nil =>
            simp at hcontra
            exact hanc ⟨[b], by simp, by simp [hcontra]⟩
        | cons b' ext' =>
            have : d = ext' ++ p := by
              have := congrArg List.tail hcontra
              simpa using this
            exact hdesc ⟨ext', this⟩
      exact set_path_state_frame t m p s (b :: d) hcna hcnd
    rw [hchild]
    exact hder d cs hd hne

/-- `toggle_selection` on a discovered path preserves the tree invariant. -/
theorem stInv_toggle {t : FSNode} {m : StMap} (hwf : fsWF t = true)
    (hsi : stInv t m) {p : FPath} (hp : (lookupFS t p).isSome = true) :
    stInv t (toggle_selection t m p) := by
  unfold toggle_selection
  by_cases h : (get_path_state m p == 0 || get_path_state m p == 1) = true
  · rw [if_pos h]
    exact stInv_set hwf hsi hp (Or.inr rfl)
  · rw [if_neg h]
    exact stInv_set hwf hsi hp (Or.inl rfl)

/-- Any valid operation preserves the tree invariant. -/
theorem stInv_applyOp {t : FSNode} {m : StMap} (hwf : fsWF t = true)
    (hsi : stInv t m) {op : UIOp} (hv : validOp t op) :
    stInv t (applyOp t m op) := by
  cases op with
  | setSel p s =>
      rcases hv with ⟨hmem, hs⟩
      exact stInv_set hwf hsi ((mem_build_root hwf p).mp hmem) hs
  | togSel p =>
      exact stInv_toggle hwf hsi ((mem_build_root hwf p).mp hv)

/-- Any sequence of valid operations preserves the tree invariant. -/
theorem stInv_applyOps {t : FSNode} (hwf : fsWF t = true) :
    ∀ (ops : List UIOp) (m : StMap), stInv t m →
      (∀ op ∈ ops, validOp t op) → stInv t (applyOps t ops m) := by
  intro ops
  induction ops with
  | nil => intro m hsi _; exact hsi
  | cons op rest ih =>
      intro m hsi hv
      exact ih (applyOp t m op)
        (stInv_applyOp hwf hsi (hv op (List.mem_cons_self ..)))
        (fun o ho => hv o (List.mem_cons_of_mem _ ho))


/-! ### Claim C1 -/

/-- C1, amended: over an unchanged filesystem, for every sequence of
`toggle`/`set_state` calls on tree paths (with `set_state` using the
documented 0/2 values), after each call every Directory node *with at least
one child* has state equal to the spec's invariant function of its children's
states.  (The original claim quantified over all directories, including
childless ones, and fails for those.) -/
theorem c1_invariant_nonempty_dirs {t : FSNode} (hwf : fsWF t = true)
    (ops : List UIOp) (hv : ∀ op ∈ ops, validOp t op) (k : Nat)
    {d : FPath} {cs : List (Name × FSNode)}
    (hd : lookupFS t d = some (.dir cs)) (hne : cs ≠ []) :
    dictGetD (applyOps t (ops.take k) (initStMap t)) d =
      specInvFun
        (collect_child_states t (applyOps t (ops.take k) (initStMap t)) d) := by
  have hsi := stInv_applyOps hwf (ops.take k) (initStMap t) (stInv_init hwf)
    (fun op ho => hv op (List.take_subset k ops ho))
  have h2 := hsi.2 d cs hd hne
  rw [h2, derivedState_eq_specInvFun]
  unfold collect_child_states
  simp only [ne_eq, List.map_eq_nil_iff]
  exact iterdir_ne_nil hd hne

/-- Witness for `c1_invariant_nonempty_dirs`: in `fsA`, after toggling the
directory `D`, the nonempty directory `D` satisfies the invariant function of
its children. -/
theorem c1_invariant_nonempty_dirs_witness :
    dictGetD (applyOps fsA ([UIOp.togSel ["D"]].take 1) (initStMap fsA)) ["D"]
      = specInvFun
        (collect_child_states fsA
          (applyOps fsA ([UIOp.togSel ["D"]].take 1) (initStMap fsA)) ["D"]) :=
  @c1_invariant_nonempty_dirs fsA (by decide) [UIOp.togSel ["D"]]
    (by
      intro op hop
      simp only [List.mem_singleton] at hop
      subst hop
      show ["D"] ∈ build_tree_paths fsA []
      simp [fsA, build_tree_paths, build_list, buildOrderEntries, sortEntries,
        insertE, entryIsDir, entryIsFile])
    1 ["D"] [("x", .file), ("y", .file)] (by rfl) (by simp)

/-- C1 as frozen is false: in `fsB` (a root with one empty directory `d`),
after the single toggle of `d` — a valid `toggle` call on a tree path — the
Directory node `d` has state 2, while the invariant function of its (zero)
children's states is 0. -/
theorem c1_counterexample :
    dictGetD (applyOps fsB [UIOp.togSel ["d"]] (initStMap fsB)) ["d"] = 2 ∧
    specInvFun
      (collect_child_states fsB
        (applyOps fsB [UIOp.togSel ["d"]] (initStMap fsB)) ["d"]) = 0 := by
  have h : initStMap fsB = [([], 0), (["d"], 0)] := by
    simp [initStMap, fsB, build_tree_paths, build_list, buildOrderEntries,
      sortEntries, insertE, entryIsDir, entryIsFile]
  rw [h]
  constructor
  · decide
  · decide

/-! ### Claim C5 -/

/-- `_propagate_state_to_children` does nothing when the state is 1: the
`state in (0, 2)` guard fails for every child. -/
theorem downList_one (cs : List (Name × FSNode)) (p : FPath) (m : StMap) :
    downList cs p 1 m = m := by
  induction cs generalizing m with
  | nil => rfl
  | cons e rest ih =>
      rcases e with ⟨a, c⟩
      show downList rest p 1 _ = m
      rw [if_neg (by simp)]
      exact ih m

/-- Setting state 1 on a path leaves every strict descendant unchanged. -/
theorem set_path_state_one_desc (t : FSNode) (m : StMap) (p : FPath)
    {ext : FPath} (hne : ext ≠ []) :
    dictGetD (set_path_state t m p 1) (ext ++ p) = dictGetD m (ext ++ p) := by
  unfold set_path_state
  have hup : ¬ strAnc (ext ++ p) p := not_strAnc_of_descOf ⟨ext, rfl⟩
  rw [up_frame t p _ _ hup]
  have hnep : ext ++ p ≠ p := by
    intro h
    have := congrArg List.length h
    simp [List.length_append] at this
    exact hne this
  cases hl : lookupFS t p with
  | none => exact dictGetD_set_ne m p _ 1 hnep
  | some n =>
      cases n with
      | file => exact dictGetD_set_ne m p _ 1 hnep
      | dir cs =>
          show dictGetD (downList cs p 1 (dictSet m p 1)) _ = _
          rw [downList_one]
          exact dictGetD_set_ne m p _ 1 hnep

/-- C5: for a Directory `D` of the tree, `set_state(D, s)` with
`s ∈ {FullySelected, Unselected}` assigns `s` to `D` and to every discovered
descendant of `D`, while `set_state(D, Partial)` is never propagated (all
strict descendants keep their state).  In the concrete example `fsA`,
`set_state(D, 2)` makes `D`, `D/x`, `D/y` all 2 and a subsequent
`set_state(D/x, 0)` makes `D` partial (1). -/
theorem c5_directory_propagation {t : FSNode} {m : StMap}
    (hwf : fsWF t = true) (hki : keysInv t m) {D : FPath}
    {cs : List (Name × FSNode)} (hD : lookupFS t D = some (.dir cs))
    {s : Nat} (hs : s = 0 ∨ s = 2) :
    (∀ ext : FPath, (lookupFS t (ext ++ D)).isSome = true →
      dictGetD (set_path_state t m D s) (ext ++ D) = s) ∧
    (∀ ext : FPath, ext ≠ [] →
      dictGetD (set_path_state t m D 1) (ext ++ D) = dictGetD m (ext ++ D)) ∧
    (dictGetD (set_path_state fsA (initStMap fsA) ["D"] 2) ["D"] = 2 ∧
     dictGetD (set_path_state fsA (initStMap fsA) ["D"] 2) ["x", "D"] = 2 ∧
     dictGetD (set_path_state fsA (initStMap fsA) ["D"] 2) ["y", "D"] = 2 ∧
     dictGetD
       (set_path_state fsA (set_path_state fsA (initStMap fsA) ["D"] 2)
         ["x", "D"] 0) ["D"] = 1) := by
  have hDs : (lookupFS t D).isSome = true := by rw [hD]; rfl
  refine ⟨set_path_state_desc hwf hki hDs hs,
    fun ext hne => set_path_state_one_desc t m D hne, ?_⟩
  have h : initStMap fsA = [([], 0), (["D"], 0), (["x", "D"], 0),
      (["y", "D"], 0)] := by
    simp +decide [initStMap, fsA, build_tree_paths, build_list,
      buildOrderEntries, sortEntries, insertE, entryIsDir, entryIsFile]
  rw [h]
  refine ⟨by decide, by decide, by decide, by decide⟩

/-- Witness for `c5_directory_propagation`: instantiated in `fsA` at
directory `D` with state 2; the first conjunct applied to the child `x`
(extension `["x"]`) gives state 2. -/
theorem c5_directory_propagation_witness :
    dictGetD (set_path_state fsA (initStMap fsA) ["D"] 2) (["x"] ++ ["D"])
      = 2 :=
  (@c5_directory_propagation fsA (initStMap fsA) (by decide)
      (keysInv_init fsA) ["D"] [("x", .file), ("y", .file)] (by rfl) 2
      (Or.inr rfl)).1 ["x"] (by rfl)

/-! ### Claim C6 -/

/-- C6: `toggle` calls `set_state(path, FullySelected)` when the current
state is Unselected or Partial, and `set_state(path, Unselected)` when it is
FullySelected; the same rule for directories and files (the code never
inspects the node kind). -/
theorem c6_toggle_dispatch (t : FSNode) (m : StMap) (p : FPath) :
    (get_path_state m p = 0 ∨ get_path_state m p = 1 →
      toggle_selection t m p = set_path_state t m p 2) ∧
    (get_path_state m p = 2 →
      toggle_selection t m p = set_path_state t m p 0) := by
  constructor
  · intro h
    unfold toggle_selection
    rcases h with h | h <;> rw [if_pos (by simp [h])]
  · intro h
    unfold toggle_selection
    rw [if_neg (by simp [h])]

/-- Witness for `c6_toggle_dispatch`: on the fresh `fsA` tree the state of
`D` is 0, so toggling `D` is `set_state(D, 2)`. -/
theorem c6_toggle_dispatch_witness :
    toggle_selection fsA (initStMap fsA) ["D"] =
      set_path_state fsA (initStMap fsA) ["D"] 2 := by
  apply (c6_toggle_dispatch fsA (initStMap fsA) ["D"]).1
  left
  have h : initStMap fsA = [([], 0), (["D"], 0), (["x", "D"], 0),
      (["y", "D"], 0)] := by
    simp +decide [initStMap, fsA, build_tree_paths, build_list,
      buildOrderEntries, sortEntries, insertE, entryIsDir, entryIsFile]
  rw [h]
  decide

/-! ### Claim C7 -/

theorem dictGetD_of_hasKey_false {m : StMap} {q : FPath}
    (h : hasKey m q = false) : dictGetD m q = 0 := by
  unfold hasKey at h
  unfold dictGetD
  cases hg : dictGet m q with
  | none => rfl
  | some s => rw [hg] at h; cases h

/-- Suffixes of equal length of the same list are equal. -/
theorem append_suffix_eq {α : Type} {e1 e2 x y : List α}
    (h : e1 ++ x = e2 ++ y) (hlen : x.length = y.length) : x = y := by
  have hl := congrArg List.length h
  simp [List.length_append] at hl
  exact (List.append_inj h (by omega)).2

/-- C7: on a tree path (filesystem unchanged), running
`set_path_state(path, 2)` twice yields the same tree-wide path-to-state map
as running it once: same value at every path and the same key list. -/
theorem c7_set_state_idempotent {t : FSNode} {m : StMap}
    (hwf : fsWF t = true) (hki : keysInv t m) {p : FPath}
    (hp : p ∈ build_tree_paths t []) :
    (∀ q, dictGetD (set_path_state t (set_path_state t m p 2) p 2) q
      = dictGetD (set_path_state t m p 2) q) ∧
    dictKeys (set_path_state t (set_path_state t m p 2) p 2)
      = dictKeys (set_path_state t m p 2) := by
  have hps : (lookupFS t p).isSome = true := (mem_build_root hwf p).mp hp
  have hki1 : keysInv t (set_path_state t m p 2) := keysInv_set hwf hki hps 2
  have hkeys : dictKeys (set_path_state t (set_path_state t m p 2) p 2)
      = dictKeys (set_path_state t m p 2) :=
    set_path_state_keys hwf hki1 hps 2
  refine ⟨?_, hkeys⟩
  have hanc : ∀ (e : FPath), e ≠ [] → ∀ q, p = e ++ q →
      dictGetD (set_path_state t (set_path_state t m p 2) p 2) q
        = dictGetD (set_path_state t m p 2) q := by
    intro e
    induction e using List.reverseRecOn with
    | nil => intro h; exact absurd rfl h
    | append_singleton e' b ih =>
        intro _ q hq
        have hq' : p = e' ++ (b :: q) := by simpa using hq
        have hqa : strAnc q p := ⟨e' ++ [b], by simp, hq⟩
        have hqd : isDirFS t q = true := lookupFS_anc_isDir hps hqa
        obtain ⟨cs, hcs⟩ : ∃ cs, lookupFS t q = some (.dir cs) := by
          unfold isDirFS at hqd
          cases hl : lookupFS t q with
          | none => rw [hl] at hqd; cases hqd
          | some n =>
              cases n with
              | file => rw [hl] at hqd; cases hqd
              | dir cs => exact ⟨cs, rfl⟩
        rw [set_path_state_anc hwf hki1 hps 2 q hqa,
          set_path_state_anc hwf hki hps 2 q hqa]
        congr 1
        unfold collect_child_states
        apply List.map_congr_left
        intro c hc
        rcases mem_iterdir_lookup hcs hc with ⟨b2, hbc, hcsome⟩
        subst hbc
        by_cases hbb : b2 = b
        · subst hbb
          by_cases he' : e' = []
          · subst he'
            have hpq : p = b2 :: q := by simpa using hq'
            rw [← hpq]
            have hd2 := set_path_state_desc hwf hki1 hps (Or.inr rfl) []
              (by simpa using hps)
            have hd1 := set_path_state_desc hwf hki hps (Or.inr rfl) []
              (by simpa using hps)
            simp only [List.nil_append] at hd2 hd1
            rw [hd2, hd1]
          · exact ih he' (b2 :: q) hq'
        · have hna2 : ¬ strAnc (b2 :: q) p := by
            rintro ⟨e2, he2, hpe2⟩
            have heq : e2 ++ (b2 :: q) = e' ++ (b :: q) := by
              rw [← hpe2, hq']
            have := append_suffix_eq heq (by simp)
            exact hbb (List.cons_eq_cons.mp this).1
          have hnd2 : ∀ ext : FPath, b2 :: q ≠ ext ++ p := by
            intro ext hcontra
            have hlp : p.length = e'.length + 1 + q.length := by
              rw [hq']
              simp [List.length_append]
              omega
            have hlc := congrArg List.length hcontra
            simp [List.length_append] at hlc
            have hext : ext = [] := by
              cases ext with
              | nil => rfl
              | cons u v => simp at hlc; omega
            subst hext
            simp at hcontra
            have he' : e' = [] := by
              cases e' with
              | nil => rfl
              | cons u v => simp at hlp; omega
            subst he'
            simp at hq'
            have hbe : b2 :: q = b :: q := hcontra.trans hq'
            exact hbb (List.cons_eq_cons.mp hbe).1
          exact set_path_state_frame t (set_path_state t m p 2) p 2
            (b2 :: q) hna2 hnd2
  intro q
  by_cases hk : hasKey (set_path_state t m p 2) q = true
  · have hqs : (lookupFS t q).isSome = true :=
      (hasKey_keysInv hwf hki1 q).mp hk
    by_cases hdesc : descOf q p
    · rcases hdesc with ⟨ext, hqe⟩
      subst hqe
      rw [set_path_state_desc hwf hki1 hps (Or.inr rfl) ext hqs,
        set_path_state_desc hwf hki hps (Or.inr rfl) ext hqs]
    · by_cases hanc' : strAnc q p
      · rcases hanc' with ⟨e, he, hpe⟩
        exact hanc e he q hpe
      · exact set_path_state_frame t (set_path_state t m p 2) p 2 q hanc'
          (fun ext h => hdesc ⟨ext, h⟩)
  · have hkf : hasKey (set_path_state t m p 2) q = false := by
      cases hkk : hasKey (set_path_state t m p 2) q
      · rfl
      · exact absurd hkk hk
    have hkf2 : hasKey (set_path_state t (set_path_state t m p 2) p 2) q
        = false := by
      rw [hasKey_eq_of_dictKeys_eq hkeys]
      exact hkf
    rw [dictGetD_of_hasKey_false hkf, dictGetD_of_hasKey_false hkf2]

/-- Witness for `c7_set_state_idempotent`: in `fsA`, fully selecting the file
`x` twice leaves the state of `D` as after doing it once. -/
theorem c7_set_state_idempotent_witness :
    dictGetD
      (set_path_state fsA
        (set_path_state fsA (initStMap fsA) ["x", "D"] 2) ["x", "D"] 2) ["D"]
      = dictGetD (set_path_state fsA (initStMap fsA) ["x", "D"] 2) ["D"] :=
  (@c7_set_state_idempotent fsA (initStMap fsA) (by decide)
    (keysInv_init fsA) ["x", "D"]
    (by
      show ["x", "D"] ∈ build_tree_paths fsA []
      simp +decide [fsA, build_tree_paths, build_list, buildOrderEntries,
        sortEntries, insertE, entryIsDir, entryIsFile])).1 ["D"]

/-! ### Discovered paths are pairwise distinct -/

theorem namesNodup_iff {l : List Name} : namesNodup l = true ↔ l.Nodup := by
  induction l with
  | nil => simp [namesNodup]
  | cons a r ih => simp [namesNodup, List.nodup_cons, ih]

theorem descOf_cons_length {q : FPath} {a : Name} {p : FPath}
    (h : descOf q (a :: p)) : p.length + 1 ≤ q.length := by
  rcases h with ⟨ext, hq⟩
  subst hq
  simp [List.length_append]

theorem build_nodup_aux : ∀ k : Nat,
    (∀ (n : FSNode) (p : FPath), fsSize n ≤ k → fsWF n = true →
      (build_tree_paths n p).Nodup) ∧
    (∀ (es : List (Name × FSNode)) (p : FPath),
      (es.map entryWeight).sum ≤ k →
      (∀ e ∈ es, fsWF e.2 = true) → (es.map Prod.fst).Nodup →
      (build_list es p).Nodup ∧
      (∀ q ∈ build_list es p, ∃ e ∈ es, descOf q (e.1 :: p))) := by
  intro k
  induction k with
  | zero =>
      constructor
      · intro n p hsz
        have := fsSize_pos n
        omega
      · intro es p hsz hwfe hnde
        cases es with
        | nil =>
            constructor
            · simp [build_list]
            · intro q hq
              simp [build_list] at hq
        | cons e rest =>
            exfalso
            have : 1 ≤ entryWeight e := by simp [entryWeight]
            simp [List.map_cons, List.sum_cons] at hsz
            omega
  | succ k ih =>
      obtain ⟨ihA, ihB⟩ := ih
      constructor
      · intro n p hsz hwf
        cases n with
        | file => simp [build_tree_paths]
        | dir cs =>
            rw [build_tree_paths]
            have hsum : ((buildOrderEntries cs).map entryWeight).sum ≤ k := by
              have h1 : ((buildOrderEntries cs).map entryWeight).sum =
                  (cs.map entryWeight).sum :=
                ((perm_buildOrderEntries cs).map entryWeight).sum_eq
              rw [h1, sum_entryWeight]
              simp [fsSize] at hsz
              omega
            have hwfe : ∀ e ∈ buildOrderEntries cs, fsWF e.2 = true := by
              intro e he
              rcases e with ⟨a, c⟩
              exact fsWFList_fsWF (fsWF_dir_list hwf)
                (mem_buildOrderEntries.mp he)
            have hnde : ((buildOrderEntries cs).map Prod.fst).Nodup := by
              rw [((perm_buildOrderEntries cs).map Prod.fst).nodup_iff]
              exact namesNodup_iff.mp (fsWF_dir_nodup hwf)
            obtain ⟨hnodup, hdesc⟩ := ihB (buildOrderEntries cs) p hsum hwfe hnde
            rw [List.nodup_cons]
            refine ⟨?_, hnodup⟩
            intro hpmem
            rcases hdesc p hpmem with ⟨e, _, hde⟩
            have := descOf_cons_length hde
            omega
      · intro es p hsz hwfe hnde
        cases es with
        | nil =>
            constructor
            · simp [build_list]
            · intro q hq
              simp [build_list] at hq
        | cons e rest =>
            have hsze : fsSize e.2 ≤ k := by
              simp only [List.map_cons, List.sum_cons, entryWeight] at hsz
              omega
            have hszr : (rest.map entryWeight).sum ≤ k := by
              have : 1 ≤ entryWeight e := by simp [entryWeight]
              simp only [List.map_cons, List.sum_cons] at hsz
              omega
            have hwfhd : fsWF e.2 = true := hwfe e (List.mem_cons_self ..)
            have hwfr : ∀ f ∈ rest, fsWF f.2 = true :=
              fun f hf => hwfe f (List.mem_cons_of_mem _ hf)
            have hndr : (rest.map Prod.fst).Nodup := by
              simp only [List.map_cons, List.nodup_cons] at hnde
              exact hnde.2
            have hhead : e.1 ∉ rest.map Prod.fst := by
              simp only [List.map_cons, List.nodup_cons] at hnde
              exact hnde.1
            obtain ⟨hnr, hdr⟩ := ihB rest p hszr hwfr hndr
            have hnh : (build_tree_paths e.2 (e.1 :: p)).Nodup :=
              ihA e.2 (e.1 :: p) hsze hwfhd
            have hdesch : ∀ q ∈ build_tree_paths e.2 (e.1 :: p),
                descOf q (e.1 :: p) := by
              intro q hq
              rcases (mem_build hwfhd (e.1 :: p) q).mp hq with ⟨ext, hqe, _⟩
              exact ⟨ext, hqe⟩
            rw [build_list]
            constructor
            · refine hnh.append hnr ?_
              intro q hq1 hq2
              rcases hdr q hq2 with ⟨f, hf, hdf⟩
              have heq : e.1 = f.1 :=
                desc_child_disjoint (hdesch q hq1) hdf
              exact hhead (heq ▸ List.mem_map_of_mem Prod.fst hf)
            · intro q hq
              rcases List.mem_append.mp hq with h | h
              · exact ⟨e, List.mem_cons_self .., hdesch q h⟩
              · rcases hdr q h with ⟨f, hf, hdf⟩
                exact ⟨f, List.mem_cons_of_mem _ hf, hdf⟩

/-- On a well-formed snapshot, the discovered paths are pairwise distinct. -/
theorem build_paths_nodup {t : FSNode} (hwf : fsWF t = true) (p : FPath) :
    (build_tree_paths t p).Nodup :=
  (build_nodup_aux (fsSize t)).1 t p le_rfl hwf

/-! ### Claim C9 -/

theorem dictGet_eq_of_mem_nodup {m : StMap} (hnd : (dictKeys m).Nodup)
    {q : FPath} {s : Nat} (h : (q, s) ∈ m) : dictGet m q = some s := by
  induction m with
  | nil => simp at h
  | cons e r ih =>
      rcases e with ⟨k, v⟩
      simp only [dictKeys, List.map_cons, List.nodup_cons] at hnd
      rcases List.mem_cons.mp h with h1 | h1
      · injection h1 with h1a h1b
        subst h1a
        subst h1b
        simp [dictGet]
      · have hkq : k ≠ q := by
          intro hk
          subst hk
          exact hnd.1 (List.mem_map_of_mem Prod.fst h1)
        simp only [dictGet, if_neg hkq]
        exact ih hnd.2 h1

theorem mem_of_dictGet {m : StMap} {q : FPath} {s : Nat}
    (h : dictGet m q = some s) : (q, s) ∈ m := by
  induction m with
  | nil => simp [dictGet] at h
  | cons e r ih =>
      rcases e with ⟨k, v⟩
      by_cases hk : k = q
      · subst hk
        simp [dictGet] at h
        simp [h]
      · simp only [dictGet, if_neg hk] at h
        exact List.mem_cons_of_mem _ (ih h)

theorem isFile_iff_not_isDir {t : FSNode} {q : FPath}
    (h : (lookupFS t q).isSome = true) :
    isFileFS t q = true ↔ isDirFS t q = false := by
  unfold isFileFS isDirFS
  cases hl : lookupFS t q with
  | none => rw [hl] at h; cases h
  | some n => cases n <;> simp

/-- Membership in `_collect_selected_files`: a path of the map with state 2
that is not a directory. -/
theorem collect_mem_iff {t : FSNode} {m : StMap} (hwf : fsWF t = true)
    (hki : keysInv t m) (q : FPath) :
    q ∈ collect_selected_files t m ↔
      (lookupFS t q).isSome = true ∧ dictGetD m q = 2 ∧
        isDirFS t q = false := by
  have hnd : (dictKeys m).Nodup := by
    rw [hki]
    exact build_paths_nodup hwf []
  unfold collect_selected_files
  constructor
  · intro h
    rcases List.mem_map.mp h with ⟨⟨q', s⟩, hmem, hq'⟩
    subst hq'
    rcases List.mem_filter.mp hmem with ⟨hmem', hP⟩
    simp only [Bool.and_eq_true, beq_iff_eq, Bool.not_eq_true'] at hP
    have hget : dictGet m q' = some s := dictGet_eq_of_mem_nodup hnd hmem'
    have hkey : hasKey m q' = true := by
      unfold hasKey
      rw [hget]
      rfl
    refine ⟨(hasKey_keysInv hwf hki q').mp hkey, ?_, hP.2⟩
    unfold dictGetD
    rw [hget]
    exact hP.1
  · rintro ⟨hsome, hval, hdir⟩
    have hkey : hasKey m q = true := (hasKey_keysInv hwf hki q).mpr hsome
    unfold hasKey at hkey
    cases hget : dictGet m q with
    | none => rw [hget] at hkey; cases hkey
    | some s =>
        have hs2 : s = 2 := by
          unfold dictGetD at hval
          rw [hget] at hval
          exact hval
        subst hs2
        refine List.mem_map.mpr ⟨(q, 2), List.mem_filter.mpr
          ⟨mem_of_dictGet hget, ?_⟩, rfl⟩
        simp [hdir]

/-- C9: `collect_selected_files` returns exactly the File-kind nodes whose
state is 2; Directory nodes are never included, regardless of state. -/
theorem c9_collect_semantics {t : FSNode} {m : StMap} (hwf : fsWF t = true)
    (hki : keysInv t m) :
    (∀ q, q ∈ collect_selected_files t m ↔
      q ∈ build_tree_paths t [] ∧ dictGetD m q = 2 ∧ isFileFS t q = true) ∧
    (∀ q, isDirFS t q = true → q ∉ collect_selected_files t m) := by
  constructor
  · intro q
    rw [collect_mem_iff hwf hki q, mem_build_root hwf q]
    constructor
    · rintro ⟨h1, h2, h3⟩
      exact ⟨h1, h2, (isFile_iff_not_isDir h1).mpr h3⟩
    · rintro ⟨h1, h2, h3⟩
      exact ⟨h1, h2, (isFile_iff_not_isDir h1).mp h3⟩
  · intro q hdir hmem
    have := ((collect_mem_iff hwf hki q).mp hmem).2.2
    rw [hdir] at this
    cases this

/-- Witness for `c9_collect_semantics`: the root directory of `fsA` is never
collected. -/
theorem c9_collect_semantics_witness :
    ([] : FPath) ∉ collect_selected_files fsA (initStMap fsA) :=
  (c9_collect_semantics (by decide) (keysInv_init fsA)).2 [] (by rfl)

/-! ### Claim C2 -/

/-- C2 names intended behavior the code does not implement:
`should_ignore` does match `a.log` against the pattern `*.log`, but
`_build_tree` never consults `ignore_manager` (nothing in the repository
calls `should_ignore` or `load_ignore_patterns`), so the tree built over
`fsC` still contains a node for `a.log`, with a `path_to_state` entry —
selectable and collectable like any other file. -/
theorem c2_ignored_file_gets_node :
    should_ignore ["a.log"] ["*.log"] = true ∧
    ["a.log"] ∈ build_tree_paths fsC [] ∧
    hasKey (initStMap fsC) ["a.log"] = true := by
  refine ⟨by simp +decide [should_ignore, globMatch], ?_, ?_⟩
  · simp +decide [fsC, build_tree_paths, build_list, buildOrderEntries,
      sortEntries, insertE, entryIsDir, entryIsFile]
  · have h : initStMap fsC = [([], 0), (["sub"], 0), (["z", "sub"], 0),
        (["a.log"], 0), (["b.txt"], 0)] := by
      simp +decide [initStMap, fsC, build_tree_paths, build_list,
        buildOrderEntries, sortEntries, insertE, entryIsDir, entryIsFile]
    rw [h]
    decide

/-! ### Claim C4 -/

/-- C4 as frozen is false: `get_path_state` of the unknown path `zz` is the
default 0, but `set_path_state` on it is not a no-op — it records the state
(which persists in `path_to_state`) and then raises `KeyError` at
`self.path_to_node[path].refresh()`. -/
theorem c4_counterexample :
    get_path_state (initStMap fsA) ["zz"] = 0 ∧
    exceptOk (set_path_state_checked fsA (initStMap fsA) ["zz"] 2) = false ∧
    dictGetD (set_path_state fsA (initStMap fsA) ["zz"] 2) ["zz"] = 2 := by
  have hb : build_tree_paths fsA [] = [[], ["D"], ["x", "D"], ["y", "D"]] := by
    simp +decide [fsA, build_tree_paths, build_list, buildOrderEntries,
      sortEntries, insertE, entryIsDir, entryIsFile]
  have hm : initStMap fsA = [([], 0), (["D"], 0), (["x", "D"], 0),
      (["y", "D"], 0)] := by
    rw [initStMap, hb]
    rfl
  refine ⟨by rw [hm]; decide, ?_, by rw [hm]; decide⟩
  simp only [set_path_state_checked, exceptOk]
  rw [hb, hm]
  decide

/-- C4, amended: for every path that has no Node in the tree, `get_state`
returns Unselected (0), but `set_state` does not degrade to a no-op: it
records the state into `path_to_state` and then signals failure (`KeyError`
from the `path_to_node` subscript).  `toggle` takes a tree node object, so it
cannot even be invoked for a path without a Node. -/
theorem c4_unknown_path_behavior {t : FSNode} {m : StMap}
    (hwf : fsWF t = true) (hki : keysInv t m) {q : FPath}
    (hq : q ∉ build_tree_paths t []) (s : Nat) :
    get_path_state m q = 0 ∧
    set_path_state_checked t m q s = .error (set_path_state t m q s) ∧
    dictGetD (set_path_state t m q s) q = s := by
  have hsome : (lookupFS t q).isSome = false := by
    cases h : (lookupFS t q).isSome
    · rfl
    · exact absurd ((mem_build_root hwf q).mpr h) hq
  have hkey : hasKey m q = false := by
    cases h : hasKey m q
    · rfl
    · have := (hasKey_keysInv hwf hki q).mp h
      rw [this] at hsome
      cases hsome
  refine ⟨dictGetD_of_hasKey_false hkey, ?_, ?_⟩
  · simp only [set_path_state_checked]
    rw [if_neg hq]
  · unfold set_path_state
    rw [up_frame t q _ q (strAnc_irrefl q)]
    cases hl : lookupFS t q with
    | none => exact dictGetD_set_self m q s
    | some n =>
        rw [hl] at hsome
        cases hsome

/-- Witness for `c4_unknown_path_behavior`: the unknown path `zz` in the
`fsA` tree. -/
theorem c4_unknown_path_behavior_witness :
    get_path_state (initStMap fsA) ["zz"] = 0 ∧
    set_path_state_checked fsA (initStMap fsA) ["zz"] 2 =
      .error (set_path_state fsA (initStMap fsA) ["zz"] 2) :=
  have h := @c4_unknown_path_behavior fsA (initStMap fsA) (by decide)
    (keysInv_init fsA) ["zz"]
    (by
      intro hmem
      rw [show build_tree_paths fsA [] =
          [[], ["D"], ["x", "D"], ["y", "D"]] by
        simp +decide [fsA, build_tree_paths, build_list, buildOrderEntries,
          sortEntries, insertE, entryIsDir, entryIsFile]] at hmem
      simp at hmem) 2
  ⟨h.1, h.2.1⟩

/-! ### Claim C10 -/

/-- C10: whenever the session terminates aborted — interrupted, crashed, a
`None` selection, or a false save flag — `app_main` never invokes
`_save_state`, the state file content is unchanged, and a later `_load_state`
for the same root returns the pre-session Saved Selection Set. -/
theorem c10_abort_no_save (prev : Option (List FPath)) (r : UIResult)
    (hab : ∀ sel : List FPath, r ≠ .finished (some sel) true) :
    app_main_model prev r = (prev, false) ∧
    load_state (app_main_model prev r).1 = load_state prev := by
  have h : app_main_model prev r = (prev, false) := by
    cases r with
    | interrupted => rfl
    | crashed => rfl
    | finished sel flag =>
        cases sel with
        | none => rfl
        | some paths =>
            cases flag with
            | false => rfl
            | true => exact absurd rfl (hab paths)
  exact ⟨h, by rw [h]⟩

/-- Witness for `c10_abort_no_save`: an interrupted run leaves a previously
saved selection untouched. -/
theorem c10_abort_no_save_witness :
    app_main_model (some [["a"]]) .interrupted = (some [["a"]], false) ∧
    load_state (app_main_model (some [["a"]]) .interrupted).1 =
      load_state (some [["a"]]) :=
  c10_abort_no_save (some [["a"]]) .interrupted (fun _ h => nomatch h)

/-! ### Claim C8 -/

theorem mem_insertE {e f : Name × FSNode} {l : List (Name × FSNode)} :
    f ∈ insertE e l ↔ f = e ∨ f ∈ l := by
  rw [(perm_insertE e l).mem_iff]
  simp

theorem insertE_front {e : Name × FSNode} {l : List (Name × FSNode)}
    (h : ∀ f ∈ l, e.1 ≤ f.1) : insertE e l = e :: l := by
  cases l with
  | nil => rfl
  | cons f r =>
      unfold insertE
      rw [if_pos (h f (List.mem_cons_self ..))]

theorem pairwise_insertE {e : Name × FSNode} {l : List (Name × FSNode)}
    (h : List.Pairwise (fun a b : Name × FSNode => a.1 ≤ b.1) l) :
    List.Pairwise (fun a b : Name × FSNode => a.1 ≤ b.1) (insertE e l) := by
  induction l with
  | nil => simp [insertE]
  | cons f r ih =>
      rcases List.pairwise_cons.mp h with ⟨hf, hr⟩
      by_cases hef : e.1 ≤ f.1
      · unfold insertE
        rw [if_pos hef]
        refine List.pairwise_cons.mpr ⟨?_, h⟩
        intro g hg
        rcases List.mem_cons.mp hg with h1 | h1
        · rw [h1]
          exact hef
        · exact le_trans hef (hf g h1)
      · unfold insertE
        rw [if_neg hef]
        refine List.pairwise_cons.mpr ⟨?_, ih hr⟩
        intro g hg
        rcases mem_insertE.mp hg with h1 | h1
        · rw [h1]
          exact le_of_not_le hef
        · exact hf g h1

theorem sortEntries_pairwise (l : List (Name × FSNode)) :
    List.Pairwise (fun a b : Name × FSNode => a.1 ≤ b.1) (sortEntries l) := by
  induction l with
  | nil => simp [sortEntries]
  | cons e r ih => exact pairwise_insertE ih

theorem insertE_cons_le {e f : Name × FSNode} {r : List (Name × FSNode)}
    (h : e.1 ≤ f.1) : insertE e (f :: r) = e :: f :: r := by
  simp only [insertE]
  rw [if_pos h]

theorem insertE_cons_gt {e f : Name × FSNode} {r : List (Name × FSNode)}
    (h : ¬ e.1 ≤ f.1) : insertE e (f :: r) = f :: insertE e r := by
  simp only [insertE]
  rw [if_neg h]

theorem filter_insertE_sorted {P : Name × FSNode → Bool}
    {e : Name × FSNode} {l : List (Name × FSNode)}
    (h : List.Pairwise (fun a b : Name × FSNode => a.1 ≤ b.1) l) :
    (insertE e l).filter P =
      if P e then insertE e (l.filter P) else l.filter P := by
  induction l with
  | nil =>
      cases hPe : P e <;> simp [insertE, List.filter_cons, hPe]
  | cons f r ih =>
      rcases List.pairwise_cons.mp h with ⟨hf, hr⟩
      by_cases hef : e.1 ≤ f.1
      · rw [insertE_cons_le hef]
        cases hPe : P e
        · simp [List.filter_cons, hPe]
        · have hfront : insertE e ((f :: r).filter P) =
              e :: (f :: r).filter P := by
            apply insertE_front
            intro g hg
            have hgm : g ∈ f :: r := List.mem_of_mem_filter hg
            rcases List.mem_cons.mp hgm with h1 | h1
            · rw [h1]
              exact hef
            · exact le_trans hef (hf g h1)
          simp only [List.filter_cons, hPe, if_true]
          simp only [List.filter_cons] at hfront
          rw [hfront]
      · rw [insertE_cons_gt hef]
        cases hPf : P f
        · simp only [List.filter_cons, hPf, Bool.false_eq_true, if_false]
          exact ih hr
        · simp only [List.filter_cons, hPf, if_true]
          rw [ih hr]
          cases hPe : P e
          · simp
          · simp only [if_true]
            rw [insertE_cons_gt hef]

theorem filter_sortEntries (P : Name × FSNode → Bool)
    (l : List (Name × FSNode)) :
    (sortEntries l).filter P = sortEntries (l.filter P) := by
  induction l with
  | nil => rfl
  | cons e r ih =>
      show (insertE e (sortEntries r)).filter P = _
      rw [filter_insertE_sorted (sortEntries_pairwise r), ih,
        List.filter_cons]
      cases hPe : P e
      · simp
      · simp [sortEntries]

/-- C8: `_build_tree` enumerates the children of a directory
deterministically: the directory entries first, then the file entries, each
group sorted by name under the codepoint-wise (locale-independent) string
order; the discovery list is this enumeration, so two builds over an
unchanged directory yield the same tree shape (build is a pure function of
the snapshot). -/
theorem c8_child_enumeration_order (cs : List (Name × FSNode)) (p : FPath) :
    buildOrderEntries cs =
      sortEntries (cs.filter entryIsDir) ++
        sortEntries (cs.filter entryIsFile) ∧
    (∀ e ∈ sortEntries (cs.filter entryIsDir), entryIsDir e = true) ∧
    (∀ e ∈ sortEntries (cs.filter entryIsFile), entryIsFile e = true) ∧
    List.Pairwise (fun a b : Name × FSNode => a.1 ≤ b.1)
      (sortEntries (cs.filter entryIsDir)) ∧
    List.Pairwise (fun a b : Name × FSNode => a.1 ≤ b.1)
      (sortEntries (cs.filter entryIsFile)) ∧
    build_tree_paths (.dir cs) p = p :: build_list (buildOrderEntries cs) p
    := by
  refine ⟨?_, ?_, ?_, sortEntries_pairwise _, sortEntries_pairwise _, ?_⟩
  · unfold buildOrderEntries
    rw [filter_sortEntries, filter_sortEntries]
  · intro e he
    exact List.of_mem_filter (mem_sortEntries.mp he)
  · intro e he
    exact List.of_mem_filter (mem_sortEntries.mp he)
  · rw [build_tree_paths]

/-! ### Claim C3 -/


theorem dictGetD_init (t : FSNode) (q : FPath) :
    dictGetD (initStMap t) q = 0 := by
  unfold initStMap dictGetD
  rw [dictGet_const_zero]
  by_cases h : q ∈ build_tree_paths t [] <;> simp [h]

theorem file_not_isDir {t : FSNode} {q : FPath}
    (h : lookupFS t q = some .file) : isDirFS t q = false := by
  unfold isDirFS
  rw [h]

theorem isFileFS_lookup {t : FSNode} {q : FPath} (h : isFileFS t q = true) :
    lookupFS t q = some .file := by
  unfold isFileFS at h
  cases hl : lookupFS t q with
  | none => rw [hl] at h; cases h
  | some n =>
      cases n with
      | file => rfl
      | dir cs => rw [hl] at h; cases h

theorem restore_keysInv {t : FSNode} (hwf : fsWF t = true) :
    ∀ (S : List FPath) (m : StMap), keysInv t m →
      keysInv t (restore_saved_state t S m) := by
  intro S
  induction S with
  | nil => intro m hki; exact hki
  | cons p rest ih =>
      intro m hki
      show keysInv t (restore_saved_state t rest _)
      simp only []
      by_cases hp : p ∈ build_tree_paths t []
      · rw [if_pos hp]
        exact ih _ (keysInv_set hwf hki ((mem_build_root hwf p).mp hp) 2)
      · rw [if_neg hp]
        exact ih _ hki

theorem restore_file_state {t : FSNode} (hwf : fsWF t = true) :
    ∀ (S : List FPath) (m : StMap), keysInv t m →
      (∀ p ∈ S, lookupFS t p = some .file) →
      ∀ q, lookupFS t q = some .file →
        dictGetD (restore_saved_state t S m) q =
          if q ∈ S then 2 else dictGetD m q := by
  intro S
  induction S with
  | nil =>
      intro m _ _ q _
      simp [restore_saved_state]
  | cons p rest ih =>
      intro m hki hS q hq
      have hpfile : lookupFS t p = some .file := hS p (List.mem_cons_self ..)
      have hpsome : (lookupFS t p).isSome = true := by rw [hpfile]; rfl
      have hpmem : p ∈ build_tree_paths t [] := (mem_build_root hwf p).mpr hpsome
      show dictGetD (restore_saved_state t rest _) q = _
      simp only []
      rw [if_pos hpmem]
      rw [ih _ (keysInv_set hwf hki hpsome 2)
        (fun r hr => hS r (List.mem_cons_of_mem _ hr)) q hq]
      by_cases hqrest : q ∈ rest
      · rw [if_pos hqrest, if_pos (List.mem_cons_of_mem _ hqrest)]
      · rw [if_neg hqrest]
        by_cases hqp : q = p
        · subst hqp
          rw [if_pos (List.mem_cons_self ..)]
          have h := set_path_state_desc hwf hki hpsome (Or.inr rfl) []
            (by simpa using hpsome)
          simpa using h
        · rw [if_neg (by
            intro hmem
            rcases List.mem_cons.mp hmem with h | h
            · exact hqp h
            · exact hqrest h)]
          apply set_path_state_frame
          · intro hanc
            have := lookupFS_anc_isDir hpsome hanc
            rw [file_not_isDir hq] at this
            cases this
          · intro ext hcontra
            cases ext with
            | nil => exact hqp (by simpa using hcontra)
            | cons u v =>
                have hanc : strAnc p q := ⟨u :: v, by simp, hcontra⟩
                have hqsome : (lookupFS t q).isSome = true := by rw [hq]; rfl
                have := lookupFS_anc_isDir hqsome hanc
                rw [file_not_isDir hpfile] at this
                cases this

theorem restore_as_manual (t : FSNode) :
    ∀ (S : List FPath) (m : StMap), (∀ p ∈ S, p ∈ build_tree_paths t []) →
      restore_saved_state t S m =
        applyOps t (S.map (fun p => UIOp.setSel p 2)) m := by
  intro S
  induction S with
  | nil => intro m _; rfl
  | cons p rest ih =>
      intro m hS
      show restore_saved_state t rest _ = applyOps t _ _
      simp only []
      rw [if_pos (hS p (List.mem_cons_self ..))]
      exact ih _ (fun r hr => hS r (List.mem_cons_of_mem _ hr))

/-- C3: for a set `S` of tree file paths, restoring the persisted `S` onto a
freshly built tree yields a tree whose `collect_selected_files` returns
exactly `S`; the restored map is literally the map obtained by manually
running `set_state(p, 2)` for each saved path in order (ancestor states
consistent as if each file had been selected by hand); and a persisted path
that no longer resolves to a tree node is silently skipped. -/
theorem c3_restore_round_trip {t : FSNode} (hwf : fsWF t = true)
    {S : List FPath} (hS : ∀ p ∈ S, lookupFS t p = some .file) :
    (∀ q, q ∈ collect_selected_files t
        (restore_saved_state t S (initStMap t)) ↔ q ∈ S) ∧
    restore_saved_state t S (initStMap t) =
      applyOps t (S.map (fun p => UIOp.setSel p 2)) (initStMap t) ∧
    (∀ sp, (lookupFS t sp).isSome = false →
      restore_saved_state t (S ++ [sp]) (initStMap t) =
        restore_saved_state t S (initStMap t)) := by
  have hkiR : keysInv t (restore_saved_state t S (initStMap t)) :=
    restore_keysInv hwf S (initStMap t) (keysInv_init t)
  refine ⟨?_, ?_, ?_⟩
  · intro q
    rw [collect_mem_iff hwf hkiR q]
    constructor
    · rintro ⟨hsome, hval, hdir⟩
      have hfile : lookupFS t q = some .file :=
        isFileFS_lookup ((isFile_iff_not_isDir hsome).mpr hdir)
      rw [restore_file_state hwf S _ (keysInv_init t) hS q hfile] at hval
      by_cases hq : q ∈ S
      · exact hq
      · rw [if_neg hq, dictGetD_init] at hval
        cases hval
    · intro hq
      have hfile := hS q hq
      refine ⟨by rw [hfile]; rfl, ?_, file_not_isDir hfile⟩
      rw [restore_file_state hwf S _ (keysInv_init t) hS q hfile, if_pos hq]
  · exact restore_as_manual t S _ (fun p hp =>
      (mem_build_root hwf p).mpr (by rw [hS p hp]; rfl))
  · intro sp hsp
    unfold restore_saved_state
    rw [List.foldl_append]
    simp only [List.foldl_cons, List.foldl_nil]
    rw [if_neg (fun hmem => by
      rw [(mem_build_root hwf sp).mp hmem] at hsp
      cases hsp)]

/-- Witness for `c3_restore_round_trip`: restoring the persisted selection
`{D/x}` onto a fresh `fsA` tree makes `collect_selected_files` return
`D/x`. -/
theorem c3_restore_round_trip_witness :
    ["x", "D"] ∈ collect_selected_files fsA
      (restore_saved_state fsA [["x", "D"]] (initStMap fsA)) :=
  ((@c3_restore_round_trip fsA (by decide) [["x", "D"]]
    (by
      intro p hp
      simp only [List.mem_singleton] at hp
      subst hp
      rfl)).1 ["x", "D"]).mpr (List.mem_singleton.mpr rfl)

end FeedLLM
